import Mathlib

/-!
# macExecute: the two TestApp programs

A shallow embedding of `TestApp/main.c` (the console REPL) and of
`TestApp/webServer/simple_web_server.c` (the single-threaded HTTP server),
and the properties of their input/output behaviour.

Bytes are `UInt8`.  A C buffer is the list of its bytes; a C string is the
part of a buffer ahead of its first NUL.  Standard input is the finite list
of the bytes still unread.  Library and system calls are embedded by what the
C standard and POSIX say they do; every call the programs make is recorded,
with its arguments and result, as an event of a trace.
-/

namespace MacExecute

/-- One `char` of the C programs. -/
abbrev Byte := UInt8

/-- The bytes of an ASCII text. -/
def ascii (s : String) : List Byte := s.toList.map (fun c => c.toNat.toUInt8)

/-- A C string literal: the bytes of the text and the terminating NUL. -/
def lit (s : String) : List Byte := ascii s ++ [0]

/-- The C string held by a buffer: the bytes ahead of the first NUL. -/
def cstr (buf : List Byte) : List Byte := buf.takeWhile (fun b => b ≠ 0)

/-- The C function `strlen(s)`: the length of the C string `s`. -/
def strlen (s : List Byte) : Nat := (cstr s).length

/-- The C function `strcspn(s, reject)`: the length of the longest prefix of
the C string `s` that has no byte of the C string `reject`. -/
def strcspn (s reject : List Byte) : Nat :=
  (s.takeWhile (fun b => b ≠ 0 ∧ b ∉ cstr reject)).length

/-- The C function `strcmp(a, b)`: zero when the two C strings are equal,
otherwise the difference of the first two bytes that differ.  A buffer that
ends without a NUL is read as if a NUL followed. -/
def strcmp : List Byte → List Byte → Int
  | [], [] => 0
  | [], b :: _ => - (b.toNat : Int)
  | a :: _, [] => (a.toNat : Int)
  | a :: as, b :: bs =>
    if a = b then (if a = 0 then 0 else strcmp as bs)
    else (a.toNat : Int) - (b.toNat : Int)

/-- The bytes one `fgets` call takes from the stream when the buffer has room
for `n` of them: it stops after a newline, after `n` bytes, or at the end of
the stream. -/
def readLine : Nat → List Byte → List Byte
  | 0, _ => []
  | _ + 1, [] => []
  | n + 1, b :: rest => if b = 10 then [b] else b :: readLine n rest

/-- The C function `fgets(s, size, stream)`: `none` is the NULL returned at
end of input; otherwise the new buffer (the bytes taken, a NUL, and what the
buffer held beyond them) and the rest of the stream. -/
def fgets (s : List Byte) (size : Nat) (stream : List Byte) :
    Option (List Byte × List Byte) :=
  match stream with
  | [] => none
  | _ :: _ =>
    let got := readLine (size - 1) stream
    some (got ++ 0 :: s.drop (got.length + 1), stream.drop got.length)

namespace TestApp

/-- The calls of `main.c` on the standard streams, in program order. -/
inductive Event where
  /-- Line 7, the banner. -/
  | banner
  /-- Line 10, the prompt. -/
  | prompt
  /-- Line 11: `some c` when `fgets` took the bytes `c` off standard input,
  `none` when it returned NULL. -/
  | fgets (got : Option (List Byte))
  /-- Line 22, with the C string that `input` held. -/
  | said (arg : List Byte)
  /-- Line 25, the farewell. -/
  | goodbye
  deriving DecidableEq

/-- What an event writes to standard output. -/
def render : Event → List Byte
  | .banner => ascii "Hello World on macOS! (type 'exit' to quit):\n"
  | .prompt => ascii "> "
  | .fgets _ => []
  | .said arg => ascii "You said: " ++ arg ++ ascii "\n"
  | .goodbye => ascii "Goodbye!\n"

/-- The bytes a trace writes to standard output. -/
def stdout (trace : List Event) : List Byte := trace.flatMap render

/-- The chunks a trace read with `fgets`, in order. -/
def reads : List Event → List (List Byte)
  | [] => []
  | .fgets (some c) :: t => c :: reads t
  | _ :: t => reads t

/-- The strings a trace echoed after `You said: `, in order. -/
def echoes : List Event → List (List Byte)
  | [] => []
  | .said a :: t => a :: echoes t
  | _ :: t => echoes t

/-- The two ways out of the loop: the `break` of line 12 and that of line 19. -/
inductive Stop where
  | eof
  | exit
  deriving DecidableEq

/-- The program state when the loop is left. -/
structure LoopExit where
  stop : Stop
  input : List Byte
  stdin : List Byte
  trace : List Event
  deriving DecidableEq

/-- Lines 9-23: the `while (1)` loop, from the buffer `input` and the unread
standard input `stdin`.  Each unit of fuel pays for one iteration. -/
def loop : Nat → List Byte → List Byte → Option LoopExit
  | 0, _, _ => none
  | fuel + 1, input, stdin =>
    match fgets input 256 stdin with
    | none => some ⟨.eof, input, stdin, [.prompt, .fgets none]⟩
    | some (input1, stdin1) =>
      let got := stdin.take (stdin.length - stdin1.length)
      let input2 := input1.set (strcspn input1 (lit "\n")) 0
      if strcmp input2 (lit "exit") = 0 then
        some ⟨.exit, input2, stdin1, [.prompt, .fgets (some got)]⟩
      else
        (loop fuel input2 stdin1).map fun r =>
          { r with trace := [.prompt, .fgets (some got), .said (cstr input2)] ++ r.trace }

/-- The state a run of `main` ends in. -/
structure Run where
  status : Int
  stop : Stop
  stdin : List Byte
  trace : List Event
  deriving DecidableEq

/-- Lines 4-27: `main`, from the initial (indeterminate) content of `input`
and the whole standard input. -/
def main (input stdin : List Byte) : Option Run :=
  (loop (stdin.length + 1) input stdin).map fun r =>
    ⟨0, r.stop, r.stdin, [.banner] ++ r.trace ++ [.goodbye]⟩

/-- The C string `input` holds after line 16 when `fgets` took the chunk `got`. -/
def chunkText (got : List Byte) : List Byte :=
  got.takeWhile (fun b => b ≠ 0 ∧ b ≠ 10)

/-- The buffer after lines 11 and 16 when `fgets` took the chunk `got`. -/
def nextInput (input got : List Byte) : List Byte :=
  (got ++ 0 :: input.drop (got.length + 1)).set
    (strcspn (got ++ 0 :: input.drop (got.length + 1)) (lit "\n")) 0

/-- The lines of an input, in order: each with its newline, the last one
without when the input does not end in a newline.  Their concatenation is the
input. -/
def lines : List Byte → List (List Byte)
  | [] => []
  | b :: rest =>
    if b = 10 then [b] :: lines rest
    else
      match lines rest with
      | [] => [[b]]
      | l :: ls => (b :: l) :: ls

/-- The text of a line: the line with the trailing newline removed. -/
def lineText (l : List Byte) : List Byte :=
  if l.getLast? = some 10 then l.dropLast else l

/-- What the interface description says of a run of the REPL. -/
structure SpecRun where
  stop : Stop
  read : List (List Byte)
  echoed : List (List Byte)
  unread : List Byte
  deriving DecidableEq

/-- The REPL as the interface description words it, over the lines of the
input: lines are read in order and echoed, the first line whose text is
`exit` stops the loop, and so does the end of the input. -/
def specRepl : List (List Byte) → SpecRun
  | [] => ⟨.eof, [], [], []⟩
  | l :: ls =>
    if lineText l = ascii "exit" then ⟨.exit, [l], [], ls.flatten⟩
    else
      let r := specRepl ls
      ⟨r.stop, l :: r.read, lineText l :: r.echoed, r.unread⟩

/-- The trace of the loop as the interface description words it. -/
def specTrace : List (List Byte) → List Event
  | [] => [.prompt, .fgets none]
  | l :: ls =>
    if lineText l = ascii "exit" then [.prompt, .fgets (some l)]
    else [.prompt, .fgets (some l), .said (lineText l)] ++ specTrace ls

/-- The first line of an input, with its newline. -/
def firstLine : List Byte → List Byte
  | [] => []
  | b :: rest => if b = 10 then [b] else b :: firstLine rest

end TestApp

namespace WebServer

/-- Line 7. -/
def PORT : Nat := 8080

/-- Line 8. -/
def BUFFER_SIZE : Nat := 1024

/-- Lines 10-15: the constant `response`, a C string literal written as five
adjacent pieces. -/
def response : List Byte :=
  lit ("HTTP/1.1 200 OK\r\n" ++
    "Content-Type: text/html\r\n\r\n" ++
    "<!DOCTYPE html>" ++
    "<html><head><title>Simple macOS Web Server</title></head>" ++
    "<body><h1>Hello from macOS!</h1></body></html>")

/-- The value of `AF_INET` in `<sys/socket.h>`. -/
def AF_INET : Int := 2

/-- The value of `SOCK_STREAM` in `<sys/socket.h>`. -/
def SOCK_STREAM : Int := 1

/-- The value of `INADDR_ANY` in `<netinet/in.h>`: the address 0.0.0.0. -/
def INADDR_ANY : Nat := 0

/-- The value of `EXIT_FAILURE` in `<stdlib.h>`. -/
def EXIT_FAILURE : Int := 1

/-- The number of the signal `SIGPIPE` in `<signal.h>`. -/
def SIGPIPE : Int := 13

/-- The function `htons(p)`, given as the two bytes the result has in memory:
the port in network byte order, high byte first. -/
def htons (p : Nat) : List Byte := [(p / 256 % 256).toUInt8, (p % 256).toUInt8]

/-- What the operating system and the clients do: the result of each system
call the server makes.  Calls in the loop are numbered by iteration, from 0. -/
structure Env where
  /-- The result of `socket`. -/
  socket : Int
  /-- The result of `bind`. -/
  bind : Int
  /-- The result of `listen`. -/
  listen : Int
  /-- The result of the `accept` of iteration `k`. -/
  accept : Nat → Int
  /-- The bytes the client of iteration `k` sends as its request. -/
  request : Nat → List Byte
  /-- How many of them the kernel has ready when the server reads. -/
  ready : Nat → Nat
  /-- Whether the `read` of iteration `k` fails. -/
  readFails : Nat → Bool
  /-- The `send` of iteration `k`: `some r` when it returns `r`, `none` when
  the client has reset the connection and the call raises `SIGPIPE`.  Line 54
  passes the flags 0 and the program sets no handler for the signal, so the
  signal ends the process inside the call. -/
  send : Nat → Option Int
  /-- The indeterminate content `buffer` starts with. -/
  buffer : List Byte

/-- The calls of `simple_web_server.c`, in program order, with their
arguments and results. -/
inductive Event where
  | socket (domain type protocol ret : Int)
  /-- The address is given by its three fields. -/
  | bind (fd family : Int) (addr : Nat) (port : List Byte) (ret : Int)
  | listen (fd backlog ret : Int)
  | accept (fd ret : Int)
  | read (fd : Int) (count : Nat) (ret : Int)
  /-- The `len` bytes at the pointer passed, `len`, the flags, and the result:
  `none` when the call did not return. -/
  | send (fd : Int) (bytes : List Byte) (len : Nat) (flags : Int) (ret : Option Int)
  | close (fd : Int)
  | perror (msg : String)
  /-- The bytes the call writes to standard output. -/
  | printf (out : List Byte)
  | exit (status : Int)
  deriving DecidableEq

/-- The system call `read(fd, buf, count)` on a connection with the bytes
`request`, of which `ready` have arrived: the result and the buffer
afterwards.  At most `count` bytes are stored, from the start of the buffer. -/
def read (fails : Bool) (request : List Byte) (ready : Nat) (buf : List Byte) (count : Nat) :
    Int × List Byte :=
  if fails then (-1, buf)
  else
    let got := request.take (min count ready)
    ((got.length : Int), got ++ buf.drop got.length)

/-- Lines 46-56: one pass of the loop body, iteration `k`, from the content of
`buffer`: the events and the buffer afterwards.  When `send` raises `SIGPIPE`
the pass ends inside it, ahead of the `close`.  A buffer without a NUL is
printed whole. -/
def iteration (env : Env) (server_fd : Int) (k : Nat) (buffer : List Byte) :
    List Event × List Byte :=
  let client_fd := env.accept k
  if client_fd < 0 then
    ([.accept server_fd client_fd, .perror "Accept failed"], buffer)
  else
    let r := read (env.readFails k) (env.request k) (env.ready k) buffer (BUFFER_SIZE - 1)
    match env.send k with
    | some sent =>
      ([.accept server_fd client_fd,
        .read client_fd (BUFFER_SIZE - 1) r.1,
        .printf (ascii "Received request:\n" ++ cstr r.2 ++ ascii "\n"),
        .send client_fd (response.take (strlen response)) (strlen response) 0 (some sent),
        .close client_fd], r.2)
    | none =>
      ([.accept server_fd client_fd,
        .read client_fd (BUFFER_SIZE - 1) r.1,
        .printf (ascii "Received request:\n" ++ cstr r.2 ++ ascii "\n"),
        .send client_fd (response.take (strlen response)) (strlen response) 0 none], r.2)

/-- Whether iteration `k` ends the process: its `accept` returns a descriptor
and its `send` raises `SIGPIPE`. -/
def dies (env : Env) (k : Nat) : Bool :=
  decide (0 ≤ env.accept k) && (env.send k).isNone

/-- Where a run stands: the process has exited, a signal has ended it, `main`
has returned, or the loop is still going when the fuel is spent. -/
inductive Status where
  | exited (code : Int)
  | killed (signal : Int)
  | returned (code : Int)
  | running
  deriving DecidableEq

/-- A run of the server up to the end of the fuel. -/
structure Run where
  status : Status
  trace : List Event
  buffer : List Byte
  deriving DecidableEq

/-- Lines 45-57: up to `fuel` iterations of the `while (1)` loop, from
iteration `k`.  The loop has no `break`: it goes on until a `send` ends the
process. -/
def loop (env : Env) (server_fd : Int) : Nat → Nat → List Byte → Run
  | 0, _, buffer => ⟨.running, [], buffer⟩
  | fuel + 1, k, buffer =>
    let it := iteration env server_fd k buffer
    if dies env k then ⟨.killed SIGPIPE, it.1, it.2⟩
    else
      let r := loop env server_fd fuel (k + 1) it.2
      ⟨r.status, it.1 ++ r.trace, r.buffer⟩

/-- Lines 17-61: `main`, with up to `fuel` iterations of the loop.  Lines 59-60
come after a loop without a `break` and are never reached. -/
def main (env : Env) (fuel : Nat) : Run :=
  let server_fd := env.socket
  if server_fd = 0 then
    ⟨.exited EXIT_FAILURE,
      [.socket AF_INET SOCK_STREAM 0 server_fd, .perror "Socket failed", .exit EXIT_FAILURE],
      env.buffer⟩
  else if env.bind < 0 then
    ⟨.exited EXIT_FAILURE,
      [.socket AF_INET SOCK_STREAM 0 server_fd,
        .bind server_fd AF_INET INADDR_ANY (htons PORT) env.bind,
        .perror "Bind failed", .close server_fd, .exit EXIT_FAILURE],
      env.buffer⟩
  else if env.listen < 0 then
    ⟨.exited EXIT_FAILURE,
      [.socket AF_INET SOCK_STREAM 0 server_fd,
        .bind server_fd AF_INET INADDR_ANY (htons PORT) env.bind,
        .listen server_fd 1 env.listen,
        .perror "Listen failed", .close server_fd, .exit EXIT_FAILURE],
      env.buffer⟩
  else
    let r := loop env server_fd fuel 0 env.buffer
    ⟨r.status,
      [.socket AF_INET SOCK_STREAM 0 server_fd,
        .bind server_fd AF_INET INADDR_ANY (htons PORT) env.bind,
        .listen server_fd 1 env.listen,
        .printf (ascii "Web server running on http://localhost:" ++ ascii (Nat.repr PORT) ++
          ascii "\n")] ++ r.trace,
      r.buffer⟩

/-- An environment for examples: the results of `socket`, `bind` and `listen`,
those of `accept`, and the requests.  Every `read` finds the whole request
ready, every `send` returns 162, and `buffer` starts as 1024 NUL bytes. -/
def exampleEnv (socket bind listen : Int) (accept : Nat → Int) (request : Nat → List Byte) :
    Env :=
  ⟨socket, bind, listen, accept, request, fun k => (request k).length, fun _ => false,
    fun _ => some 162, List.replicate BUFFER_SIZE 0⟩

end WebServer

/-! ## Lemmas on the C library -/

theorem toNat_cast_eq_zero (b : Byte) : (b.toNat : Int) = 0 ↔ b = 0 := by
  constructor
  · intro h
    have h2 : b.toNat = 0 := by exact_mod_cast h
    exact UInt8.ext (by simpa using h2)
  · rintro rfl; rfl

theorem cstr_nil : cstr [] = [] := rfl

theorem cstr_cons (b : Byte) (t : List Byte) :
    cstr (b :: t) = if b = 0 then [] else b :: cstr t := by
  unfold cstr
  by_cases h : b = 0 <;> simp [List.takeWhile_cons, h]

theorem strcmp_eq_zero_iff (a b : List Byte) : strcmp a b = 0 ↔ cstr a = cstr b := by
  induction a generalizing b with
  | nil =>
    cases b with
    | nil => simp [strcmp]
    | cons y ys =>
      rw [strcmp, cstr_nil, cstr_cons, neg_eq_zero, toNat_cast_eq_zero]
      by_cases h : y = 0 <;> simp [h]
  | cons x xs ih =>
    cases b with
    | nil =>
      rw [strcmp, cstr_nil, cstr_cons, toNat_cast_eq_zero]
      by_cases h : x = 0 <;> simp [h]
    | cons y ys =>
      rw [strcmp, cstr_cons, cstr_cons]
      by_cases hxy : x = y
      · subst hxy
        by_cases h : x = 0
        · simp [h]
        · simp [h, ih]
      · have hne : (x.toNat : Int) - (y.toNat : Int) ≠ 0 := by
          intro h
          apply hxy
          apply UInt8.ext
          omega
        simp only [hxy, if_false, hne, false_iff]
        by_cases hx : x = 0
        · have hy : y ≠ 0 := fun h => hxy (hx.trans h.symm)
          simp [hx, hy]
        · by_cases hy : y = 0
          · simp [hx, hy]
          · simp [hx, hy, hxy]

theorem cstr_append_nul (a r : List Byte) : cstr (a ++ 0 :: r) = cstr a := by
  induction a with
  | nil => simp [cstr_cons, cstr_nil]
  | cons x xs ih => simp only [List.cons_append, cstr_cons, ih]

theorem cstr_lit_newline : cstr (lit "\n") = [10] := by decide

theorem cstr_lit_exit : cstr (lit "exit") = ascii "exit" := by decide

theorem cstr_set_strcspn (buf : List Byte) :
    cstr (buf.set (strcspn buf (lit "\n")) 0) = TestApp.chunkText buf := by
  induction buf with
  | nil => simp [strcspn, cstr, TestApp.chunkText]
  | cons x xs ih =>
    unfold strcspn TestApp.chunkText at *
    rw [cstr_lit_newline] at *
    by_cases h : x ≠ 0 ∧ x ≠ 10
    · have h1 : x ≠ 0 := h.1
      have h2 : x ≠ 10 := h.2
      simp [List.takeWhile_cons, h1, h2, cstr_cons]
      simpa using ih
    · have : ¬ (x ≠ 0 ∧ x ∉ [(10 : Byte)]) := by simpa using h
      simp only [ne_eq, List.takeWhile_cons, decide_eq_true_eq, this, if_false, List.length_nil,
        List.set_cons_zero]
      simp [cstr_cons, h]

theorem chunkText_append_nul (a r : List Byte) :
    TestApp.chunkText (a ++ 0 :: r) = TestApp.chunkText a := by
  induction a with
  | nil => simp [TestApp.chunkText]
  | cons x xs ih =>
    unfold TestApp.chunkText at *
    simp only [List.cons_append, List.takeWhile_cons, ih]

theorem readLine_length_le (n : Nat) (s : List Byte) : (readLine n s).length ≤ n := by
  induction n generalizing s with
  | zero => simp [readLine]
  | succ n ih =>
    cases s with
    | nil => simp [readLine]
    | cons b rest =>
      by_cases h : b = 10
      · simp [readLine, h]
      · simpa [readLine, h] using ih rest

theorem readLine_eq_take (n : Nat) (s : List Byte) :
    readLine n s = s.take (readLine n s).length := by
  induction n generalizing s with
  | zero => simp [readLine]
  | succ n ih =>
    cases s with
    | nil => simp [readLine]
    | cons b rest =>
      by_cases h : b = 10
      · simp [readLine, h]
      · simpa [readLine, h] using ih rest

theorem readLine_length_le_length (n : Nat) (s : List Byte) :
    (readLine n s).length ≤ s.length := by
  have h := congrArg List.length (readLine_eq_take n s)
  rw [List.length_take] at h
  omega

theorem readLine_cons_ne_nil (n : Nat) (b : Byte) (rest : List Byte) :
    readLine (n + 1) (b :: rest) ≠ [] := by
  by_cases h : b = 10 <;> simp [readLine, h]

theorem take_consumed (n : Nat) (s : List Byte) :
    s.take (s.length - (s.drop (readLine n s).length).length) = readLine n s := by
  have h := readLine_length_le_length n s
  rw [List.length_drop, Nat.sub_sub_self h]
  exact (readLine_eq_take n s).symm

theorem loop_cons (fuel : Nat) (input : List Byte) (b : Byte) (rest : List Byte) :
    TestApp.loop (fuel + 1) input (b :: rest) =
      if TestApp.chunkText (readLine 255 (b :: rest)) = ascii "exit" then
        some ⟨.exit, TestApp.nextInput input (readLine 255 (b :: rest)),
          (b :: rest).drop (readLine 255 (b :: rest)).length,
          [.prompt, .fgets (some (readLine 255 (b :: rest)))]⟩
      else
        (TestApp.loop fuel (TestApp.nextInput input (readLine 255 (b :: rest)))
          ((b :: rest).drop (readLine 255 (b :: rest)).length)).map fun r =>
            { r with trace := [.prompt, .fgets (some (readLine 255 (b :: rest))),
                .said (TestApp.chunkText (readLine 255 (b :: rest)))] ++ r.trace } := by
  rw [TestApp.loop]
  simp only [fgets, Nat.add_one_sub_one]
  simp only [take_consumed, strcmp_eq_zero_iff, cstr_set_strcspn, chunkText_append_nul,
    cstr_lit_exit, TestApp.nextInput]

theorem loop_nil (fuel : Nat) (input : List Byte) :
    TestApp.loop (fuel + 1) input [] = some ⟨.eof, input, [], [.prompt, .fgets none]⟩ := by
  simp [TestApp.loop, fgets]

theorem lines_cons (b : Byte) (rest : List Byte) :
    TestApp.lines (b :: rest) =
      TestApp.firstLine (b :: rest) ::
        TestApp.lines ((b :: rest).drop (TestApp.firstLine (b :: rest)).length) := by
  induction rest generalizing b with
  | nil =>
    by_cases h : b = 10 <;> simp [TestApp.lines, TestApp.firstLine, h]
  | cons c rest ih =>
    by_cases h : b = 10
    · simp [TestApp.lines, TestApp.firstLine, h]
    · rw [TestApp.lines, if_neg h, ih c]
      simp [TestApp.firstLine, h]

theorem firstLine_cons_ne_nil (b : Byte) (rest : List Byte) :
    TestApp.firstLine (b :: rest) ≠ [] := by
  by_cases h : b = 10 <;> simp [TestApp.firstLine, h]

theorem lineText_firstLine (s : List Byte) :
    TestApp.lineText (TestApp.firstLine s) = (TestApp.firstLine s).takeWhile (fun b => b ≠ 10) := by
  induction s with
  | nil => simp [TestApp.firstLine, TestApp.lineText]
  | cons b rest ih =>
    by_cases h : b = 10
    · simp [TestApp.firstLine, TestApp.lineText, h]
    · cases rest with
      | nil => simp [TestApp.firstLine, TestApp.lineText, h]
      | cons c rest =>
        have hne := firstLine_cons_ne_nil c rest
        rw [TestApp.firstLine, if_neg h]
        have hlast : (b :: TestApp.firstLine (c :: rest)).getLast? =
            (TestApp.firstLine (c :: rest)).getLast? := by
          cases hfl : TestApp.firstLine (c :: rest) with
          | nil => exact absurd hfl hne
          | cons x xs => simp [List.getLast?_cons_cons]
        have hdrop : (b :: TestApp.firstLine (c :: rest)).dropLast =
            b :: (TestApp.firstLine (c :: rest)).dropLast := by
          cases hfl : TestApp.firstLine (c :: rest) with
          | nil => exact absurd hfl hne
          | cons x xs => simp
        unfold TestApp.lineText at ih ⊢
        rw [hlast, hdrop, List.takeWhile_cons]
        simp only [ne_eq, h, not_false_eq_true, decide_True, if_true]
        by_cases hl : (TestApp.firstLine (c :: rest)).getLast? = some 10
        · rw [if_pos hl] at ih ⊢
          rw [ih]
        · rw [if_neg hl] at ih ⊢
          rw [← ih]

theorem readLine_eq_firstLine (n : Nat) (s : List Byte)
    (h : ((TestApp.firstLine s).takeWhile (fun b => b ≠ 10)).length < n) :
    readLine n s = TestApp.firstLine s := by
  induction n generalizing s with
  | zero => omega
  | succ n ih =>
    cases s with
    | nil => simp [readLine, TestApp.firstLine]
    | cons b rest =>
      by_cases hb : b = 10
      · simp [readLine, TestApp.firstLine, hb]
      · simp only [TestApp.firstLine, hb, if_false, readLine, List.cons.injEq, true_and]
        apply ih
        simpa [TestApp.firstLine, hb, List.takeWhile_cons] using h

theorem chunkText_of_no_nul (l : List Byte) (h : (0 : Byte) ∉ l) :
    TestApp.chunkText l = l.takeWhile (fun b => b ≠ 10) := by
  induction l with
  | nil => simp [TestApp.chunkText]
  | cons x xs ih =>
    have hx : x ≠ 0 := fun e => h (by simp [e])
    have hxs : (0 : Byte) ∉ xs := fun e => h (by simp [e])
    unfold TestApp.chunkText at ih ⊢
    simp only [List.takeWhile_cons, ih hxs]
    by_cases h10 : x = 10 <;> simp [hx, h10]

theorem flatten_lines (s : List Byte) : (TestApp.lines s).flatten = s := by
  induction s with
  | nil => simp [TestApp.lines]
  | cons b rest ih =>
    by_cases h : b = 10
    · simp [TestApp.lines, h, ih]
    · rw [TestApp.lines, if_neg h]
      cases hl : TestApp.lines rest with
      | nil =>
        rw [hl] at ih
        simp at ih
        simp [← ih]
      | cons l ls =>
        rw [hl] at ih
        simp only [List.flatten_cons] at ih
        simp [ih]

theorem drop_firstLine_length_lt (b : Byte) (rest : List Byte) :
    ((b :: rest).drop (TestApp.firstLine (b :: rest)).length).length < (b :: rest).length := by
  have h := firstLine_cons_ne_nil b rest
  have hpos : 0 < (TestApp.firstLine (b :: rest)).length := List.length_pos.mpr h
  rw [List.length_drop]
  simp only [List.length_cons]
  omega

/-- On an input whose lines are short and free of NUL, the loop does what the
interface description says, line by line. -/
theorem loop_refines (fuel : Nat) (input stdin : List Byte) (hfuel : stdin.length < fuel)
    (hwf : ∀ l ∈ TestApp.lines stdin, (TestApp.lineText l).length < 255 ∧ (0 : Byte) ∉ l) :
    ∃ buf, TestApp.loop fuel input stdin =
      some ⟨(TestApp.specRepl (TestApp.lines stdin)).stop, buf,
        (TestApp.specRepl (TestApp.lines stdin)).unread,
        TestApp.specTrace (TestApp.lines stdin)⟩ := by
  induction fuel generalizing input stdin with
  | zero => omega
  | succ fuel ih =>
    cases stdin with
    | nil => exact ⟨input, by simp [loop_nil, TestApp.lines, TestApp.specRepl, TestApp.specTrace]⟩
    | cons b rest =>
      have hl := lines_cons b rest
      have hmem := hwf (TestApp.firstLine (b :: rest)) (by rw [hl]; simp)
      have htext := lineText_firstLine (b :: rest)
      have hread : readLine 255 (b :: rest) = TestApp.firstLine (b :: rest) :=
        readLine_eq_firstLine 255 (b :: rest) (by rw [← htext]; exact hmem.1)
      have hchunk : TestApp.chunkText (TestApp.firstLine (b :: rest)) =
          TestApp.lineText (TestApp.firstLine (b :: rest)) := by
        rw [htext]; exact chunkText_of_no_nul _ hmem.2
      rw [loop_cons, hread, hchunk, hl]
      by_cases hx : TestApp.lineText (TestApp.firstLine (b :: rest)) = ascii "exit"
      · refine ⟨TestApp.nextInput input (TestApp.firstLine (b :: rest)), ?_⟩
        simp only [hx, if_true, TestApp.specRepl, TestApp.specTrace, flatten_lines]
      · have hlt := drop_firstLine_length_lt b rest
        have hwf2 : ∀ l ∈ TestApp.lines ((b :: rest).drop (TestApp.firstLine (b :: rest)).length),
            (TestApp.lineText l).length < 255 ∧ (0 : Byte) ∉ l := by
          intro l hlm
          exact hwf l (by rw [hl]; exact List.mem_cons_of_mem _ hlm)
        obtain ⟨buf, hbuf⟩ := ih (TestApp.nextInput input (TestApp.firstLine (b :: rest)))
          ((b :: rest).drop (TestApp.firstLine (b :: rest)).length)
          (by simp only [List.length_cons] at hlt hfuel; omega) hwf2
        refine ⟨buf, ?_⟩
        simp only [hx, if_false, hbuf, Option.map_some', TestApp.specRepl, TestApp.specTrace]

/-- Enough fuel: the loop is left on every finite input. -/
theorem loop_total (fuel : Nat) (input stdin : List Byte) (hfuel : stdin.length < fuel) :
    ∃ r, TestApp.loop fuel input stdin = some r := by
  induction fuel generalizing input stdin with
  | zero => omega
  | succ fuel ih =>
    cases stdin with
    | nil => exact ⟨_, loop_nil fuel input⟩
    | cons b rest =>
      rw [loop_cons]
      split
      · exact ⟨_, rfl⟩
      · have hne := readLine_cons_ne_nil 254 b rest
        have hpos : 0 < (readLine 255 (b :: rest)).length := List.length_pos.mpr hne
        obtain ⟨r, hr⟩ := ih (TestApp.nextInput input (readLine 255 (b :: rest)))
          ((b :: rest).drop (readLine 255 (b :: rest)).length)
          (by rw [List.length_drop]; simp only [List.length_cons] at hfuel ⊢; omega)
        exact ⟨_, by rw [hr]; rfl⟩

/-- Induction over the iterations of a run of the loop that is left. -/
theorem loop_induction (P : List Byte → TestApp.LoopExit → Prop)
    (hnil : ∀ input, P [] ⟨.eof, input, [], [.prompt, .fgets none]⟩)
    (hexit : ∀ input b rest,
      TestApp.chunkText (readLine 255 (b :: rest)) = ascii "exit" →
      P (b :: rest) ⟨.exit, input, (b :: rest).drop (readLine 255 (b :: rest)).length,
        [.prompt, .fgets (some (readLine 255 (b :: rest)))]⟩)
    (hstep : ∀ b rest r,
      TestApp.chunkText (readLine 255 (b :: rest)) ≠ ascii "exit" →
      P ((b :: rest).drop (readLine 255 (b :: rest)).length) r →
      P (b :: rest) { r with trace := [.prompt, .fgets (some (readLine 255 (b :: rest))),
        .said (TestApp.chunkText (readLine 255 (b :: rest)))] ++ r.trace })
    (fuel : Nat) (input stdin : List Byte) (r : TestApp.LoopExit)
    (h : TestApp.loop fuel input stdin = some r) : P stdin r := by
  induction fuel generalizing input stdin r with
  | zero => simp [TestApp.loop] at h
  | succ fuel ih =>
    cases stdin with
    | nil =>
      rw [loop_nil] at h
      cases h
      exact hnil input
    | cons b rest =>
      rw [loop_cons] at h
      by_cases hx : TestApp.chunkText (readLine 255 (b :: rest)) = ascii "exit"
      · rw [if_pos hx] at h
        cases h
        exact hexit _ b rest hx
      · rw [if_neg hx] at h
        cases hr : TestApp.loop fuel (TestApp.nextInput input (readLine 255 (b :: rest)))
            ((b :: rest).drop (readLine 255 (b :: rest)).length) with
        | none => rw [hr] at h; simp at h
        | some r1 =>
          rw [hr] at h
          simp only [Option.map_some', Option.some.injEq] at h
          subst h
          exact hstep b rest r1 hx (ih _ _ r1 hr)

theorem readLine_dropLast (n : Nat) (s : List Byte) : (10 : Byte) ∉ (readLine n s).dropLast := by
  induction n generalizing s with
  | zero => simp [readLine]
  | succ n ih =>
    cases s with
    | nil => simp [readLine]
    | cons b rest =>
      by_cases h : b = 10
      · simp [readLine, h]
      · rw [readLine, if_neg h]
        cases hr : readLine n rest with
        | nil => simp
        | cons x xs =>
          have := ih rest
          rw [hr] at this
          rw [List.dropLast_cons₂]
          simp only [List.mem_cons, not_or]
          exact ⟨fun e => h e.symm, this⟩

theorem readLine_end (n : Nat) (s : List Byte) :
    (readLine n s).getLast? = some 10 ∨ (readLine n s).length = n ∨
      s.drop (readLine n s).length = [] := by
  induction n generalizing s with
  | zero => simp [readLine]
  | succ n ih =>
    cases s with
    | nil => simp [readLine]
    | cons b rest =>
      by_cases h : b = 10
      · simp [readLine, h]
      · rw [readLine, if_neg h]
        rcases ih rest with h1 | h1 | h1
        · left
          cases hr : readLine n rest with
          | nil => rw [hr] at h1; simp at h1
          | cons x xs => rw [hr] at h1; rw [List.getLast?_cons_cons]; exact h1
        · right; left; simp [h1]
        · right; right; simpa using h1

theorem chunkText_length_le (c : List Byte) : (TestApp.chunkText c).length ≤ c.length := by
  unfold TestApp.chunkText
  exact (List.takeWhile_sublist _).length_le

theorem chunkText_no_newline (c : List Byte) : (10 : Byte) ∉ TestApp.chunkText c := by
  unfold TestApp.chunkText
  intro h
  have := List.mem_takeWhile_imp h
  simp at this

theorem chunkText_no_nul (c : List Byte) : (0 : Byte) ∉ TestApp.chunkText c := by
  unfold TestApp.chunkText
  intro h
  have := List.mem_takeWhile_imp h
  simp at this

theorem readLine_append_drop (n : Nat) (s : List Byte) :
    readLine n s ++ s.drop (readLine n s).length = s := by
  conv_lhs => rw [readLine_eq_take n s]
  rw [List.length_take, Nat.min_eq_left (readLine_length_le_length n s)]
  exact List.take_append_drop _ _

/-- The chunks of a run are consecutive pieces of the input, each of at most
255 bytes, with a newline at most as the last byte, and each ends at a
newline, after 255 bytes, or with the input. -/
theorem loop_chunks (fuel : Nat) (input stdin : List Byte) (r : TestApp.LoopExit)
    (h : TestApp.loop fuel input stdin = some r) :
    (TestApp.reads r.trace).flatten ++ r.stdin = stdin ∧
    (∀ c ∈ TestApp.reads r.trace, c ≠ [] ∧ c.length ≤ 255 ∧ (10 : Byte) ∉ c.dropLast) ∧
    (∀ pre c post, TestApp.reads r.trace = pre ++ c :: post →
      c.getLast? = some 10 ∨ c.length = 255 ∨ (post = [] ∧ r.stdin = [])) := by
  refine loop_induction (fun stdin r =>
    (TestApp.reads r.trace).flatten ++ r.stdin = stdin ∧
    (∀ c ∈ TestApp.reads r.trace, c ≠ [] ∧ c.length ≤ 255 ∧ (10 : Byte) ∉ c.dropLast) ∧
    (∀ pre c post, TestApp.reads r.trace = pre ++ c :: post →
      c.getLast? = some 10 ∨ c.length = 255 ∨ (post = [] ∧ r.stdin = [])))
    ?_ ?_ ?_ fuel input stdin r h
  · intro input
    simp [TestApp.reads]
  · intro input b rest _
    have hgood : readLine 255 (b :: rest) ≠ [] ∧ (readLine 255 (b :: rest)).length ≤ 255 ∧
        (10 : Byte) ∉ (readLine 255 (b :: rest)).dropLast :=
      ⟨readLine_cons_ne_nil 254 b rest, readLine_length_le 255 _, readLine_dropLast 255 _⟩
    refine ⟨?_, ?_, ?_⟩
    · simpa [TestApp.reads] using readLine_append_drop 255 (b :: rest)
    · intro c hc
      simp only [TestApp.reads, List.mem_singleton] at hc
      subst hc
      exact hgood
    · intro pre c post hsplit
      simp only [TestApp.reads] at hsplit
      cases pre with
      | nil =>
        simp only [List.nil_append, List.cons.injEq] at hsplit
        obtain ⟨hc, hpost⟩ := hsplit
        subst hc
        rcases readLine_end 255 (b :: rest) with h1 | h1 | h1
        · exact Or.inl h1
        · exact Or.inr (Or.inl h1)
        · exact Or.inr (Or.inr ⟨hpost.symm, h1⟩)
      | cons p pre => simp at hsplit
  · intro b rest r _ ih
    obtain ⟨ih1, ih2, ih3⟩ := ih
    have hgood : readLine 255 (b :: rest) ≠ [] ∧ (readLine 255 (b :: rest)).length ≤ 255 ∧
        (10 : Byte) ∉ (readLine 255 (b :: rest)).dropLast :=
      ⟨readLine_cons_ne_nil 254 b rest, readLine_length_le 255 _, readLine_dropLast 255 _⟩
    have hreads : TestApp.reads ([TestApp.Event.prompt,
        TestApp.Event.fgets (some (readLine 255 (b :: rest))),
        TestApp.Event.said (TestApp.chunkText (readLine 255 (b :: rest)))] ++ r.trace) =
        readLine 255 (b :: rest) :: TestApp.reads r.trace := by
      simp [TestApp.reads]
    simp only [hreads]
    refine ⟨?_, ?_, ?_⟩
    · rw [List.flatten_cons, List.append_assoc, ih1]
      exact readLine_append_drop 255 (b :: rest)
    · intro c hc
      rcases List.mem_cons.mp hc with hc | hc
      · subst hc; exact hgood
      · exact ih2 c hc
    · intro pre c post hsplit
      cases pre with
      | nil =>
        simp only [List.nil_append, List.cons.injEq] at hsplit
        obtain ⟨hc, hpost⟩ := hsplit
        subst hc
        rcases readLine_end 255 (b :: rest) with h1 | h1 | h1
        · exact Or.inl h1
        · exact Or.inr (Or.inl h1)
        · right; right
          rw [h1] at ih1
          have hs : r.stdin = [] := (List.append_eq_nil.mp ih1).2
          have hf : (TestApp.reads r.trace).flatten = [] := (List.append_eq_nil.mp ih1).1
          refine ⟨?_, hs⟩
          rw [← hpost]
          cases hrd : TestApp.reads r.trace with
          | nil => rfl
          | cons x xs =>
            exfalso
            have hx := (ih2 x (by rw [hrd]; simp)).1
            rw [hrd, List.flatten_cons] at hf
            exact hx (List.append_eq_nil.mp hf).1
      | cons p pre =>
        simp only [List.cons_append, List.cons.injEq] at hsplit
        exact ih3 pre c post hsplit.2

/-- Every echoed string has at most 255 bytes and neither a newline nor a NUL. -/
theorem loop_echoes (fuel : Nat) (input stdin : List Byte) (r : TestApp.LoopExit)
    (h : TestApp.loop fuel input stdin = some r) :
    ∀ s ∈ TestApp.echoes r.trace, s.length ≤ 255 ∧ (10 : Byte) ∉ s ∧ (0 : Byte) ∉ s := by
  refine loop_induction (fun _ r =>
    ∀ s ∈ TestApp.echoes r.trace, s.length ≤ 255 ∧ (10 : Byte) ∉ s ∧ (0 : Byte) ∉ s)
    ?_ ?_ ?_ fuel input stdin r h
  · intro input s hs
    simp [TestApp.echoes] at hs
  · intro input b rest _ s hs
    simp [TestApp.echoes] at hs
  · intro b rest r _ ih s hs
    simp only [List.cons_append, List.nil_append, TestApp.echoes] at hs
    rcases List.mem_cons.mp hs with hs | hs
    · subst hs
      exact ⟨le_trans (chunkText_length_le _) (readLine_length_le 255 _),
        chunkText_no_newline _, chunkText_no_nul _⟩
    · exact ih s hs

/-- Each chunk is handled on its own: its text is compared with `exit`, and
echoed when it differs; the loop stops at the first chunk whose text is
`exit`. -/
theorem loop_chunk_by_chunk (fuel : Nat) (input stdin : List Byte) (r : TestApp.LoopExit)
    (h : TestApp.loop fuel input stdin = some r) :
    (r.stop = .eof → TestApp.echoes r.trace = (TestApp.reads r.trace).map TestApp.chunkText ∧
      ∀ c ∈ TestApp.reads r.trace, TestApp.chunkText c ≠ ascii "exit") ∧
    (r.stop = .exit → ∃ pre c, TestApp.reads r.trace = pre ++ [c] ∧
      TestApp.chunkText c = ascii "exit" ∧
      TestApp.echoes r.trace = pre.map TestApp.chunkText ∧
      ∀ p ∈ pre, TestApp.chunkText p ≠ ascii "exit") := by
  refine loop_induction (fun _ r =>
    (r.stop = .eof → TestApp.echoes r.trace = (TestApp.reads r.trace).map TestApp.chunkText ∧
      ∀ c ∈ TestApp.reads r.trace, TestApp.chunkText c ≠ ascii "exit") ∧
    (r.stop = .exit → ∃ pre c, TestApp.reads r.trace = pre ++ [c] ∧
      TestApp.chunkText c = ascii "exit" ∧
      TestApp.echoes r.trace = pre.map TestApp.chunkText ∧
      ∀ p ∈ pre, TestApp.chunkText p ≠ ascii "exit"))
    ?_ ?_ ?_ fuel input stdin r h
  · intro input
    simp [TestApp.reads, TestApp.echoes]
  · intro input b rest hx
    constructor
    · intro hs
      cases hs
    · intro _
      refine ⟨[], readLine 255 (b :: rest), ?_, hx, ?_, ?_⟩
      · simp [TestApp.reads]
      · simp [TestApp.echoes]
      · simp
  · intro b rest r hx ih
    have hreads : TestApp.reads ([TestApp.Event.prompt,
        TestApp.Event.fgets (some (readLine 255 (b :: rest))),
        TestApp.Event.said (TestApp.chunkText (readLine 255 (b :: rest)))] ++ r.trace) =
        readLine 255 (b :: rest) :: TestApp.reads r.trace := by
      simp [TestApp.reads]
    have hechoes : TestApp.echoes ([TestApp.Event.prompt,
        TestApp.Event.fgets (some (readLine 255 (b :: rest))),
        TestApp.Event.said (TestApp.chunkText (readLine 255 (b :: rest)))] ++ r.trace) =
        TestApp.chunkText (readLine 255 (b :: rest)) :: TestApp.echoes r.trace := by
      simp [TestApp.echoes]
    simp only [hreads, hechoes]
    refine ⟨fun hs => ?_, fun hs => ?_⟩
    · obtain ⟨h1, h2⟩ := ih.1 hs
      refine ⟨by rw [h1, List.map_cons], ?_⟩
      intro c hc
      rcases List.mem_cons.mp hc with hc | hc
      · subst hc; exact hx
      · exact h2 c hc
    · obtain ⟨pre, c, h1, h2, h3, h4⟩ := ih.2 hs
      refine ⟨readLine 255 (b :: rest) :: pre, c, by rw [h1, List.cons_append], h2,
        by rw [h3, List.map_cons], ?_⟩
      intro p hp
      rcases List.mem_cons.mp hp with hp | hp
      · subst hp; exact hx
      · exact h4 p hp

/-- Each chunk is what `fgets` takes where the chunk before it ended. -/
theorem loop_chunk_position (fuel : Nat) (input stdin : List Byte) (r : TestApp.LoopExit)
    (h : TestApp.loop fuel input stdin = some r) :
    ∀ pre c post, TestApp.reads r.trace = pre ++ c :: post →
      c = readLine 255 (stdin.drop pre.flatten.length) := by
  refine loop_induction (fun stdin r =>
    ∀ pre c post, TestApp.reads r.trace = pre ++ c :: post →
      c = readLine 255 (stdin.drop pre.flatten.length))
    ?_ ?_ ?_ fuel input stdin r h
  · intro input pre c post hsplit
    simp [TestApp.reads] at hsplit
  · intro input b rest _ pre c post hsplit
    simp only [TestApp.reads] at hsplit
    cases pre with
    | nil =>
      simp only [List.nil_append, List.cons.injEq] at hsplit
      simp [← hsplit.1]
    | cons p pre => simp at hsplit
  · intro b rest r _ ih pre c post hsplit
    simp only [List.cons_append, List.nil_append, TestApp.reads] at hsplit
    cases pre with
    | nil =>
      simp only [List.nil_append, List.cons.injEq] at hsplit
      simp [← hsplit.1]
    | cons p pre =>
      simp only [List.cons_append, List.cons.injEq] at hsplit
      rw [ih pre c post hsplit.2, ← hsplit.1, List.drop_drop]
      simp [Nat.add_comm]

/-- At the start of a line of more than `n` bytes, `fgets` with room for `n`
takes the first `n` bytes and leaves the rest of the line. -/
theorem readLine_of_long (n : Nat) (s : List Byte) (h : n < (TestApp.firstLine s).length) :
    readLine n s = s.take n ∧ (10 : Byte) ∉ s.take n ∧
      TestApp.firstLine s = s.take n ++ TestApp.firstLine (s.drop n) := by
  induction n generalizing s with
  | zero => simp [readLine]
  | succ n ih =>
    cases s with
    | nil => simp [TestApp.firstLine] at h
    | cons b rest =>
      by_cases hb : b = 10
      · simp [TestApp.firstLine, hb] at h
      · have h2 : n < (TestApp.firstLine rest).length := by
          simpa [TestApp.firstLine, hb] using h
        obtain ⟨h3, h4, h5⟩ := ih rest h2
        refine ⟨by simp [readLine, hb, h3], ?_, ?_⟩
        · simp only [List.take_succ_cons, List.mem_cons, not_or]
          exact ⟨fun e => hb e.symm, h4⟩
        · simp only [TestApp.firstLine, hb, if_false, List.take_succ_cons, List.drop_succ_cons,
            List.cons_append, List.cons.injEq, true_and]
          exact h5

theorem reads_append (a b : List TestApp.Event) :
    TestApp.reads (a ++ b) = TestApp.reads a ++ TestApp.reads b := by
  induction a with
  | nil => rfl
  | cons e t ih =>
    cases e with
    | fgets got =>
      cases got with
      | none => simpa [TestApp.reads] using ih
      | some c => simpa [TestApp.reads] using ih
    | _ => simpa [TestApp.reads] using ih

theorem echoes_append (a b : List TestApp.Event) :
    TestApp.echoes (a ++ b) = TestApp.echoes a ++ TestApp.echoes b := by
  induction a with
  | nil => rfl
  | cons e t ih =>
    cases e <;> simpa [TestApp.echoes] using ih

theorem reads_main_trace (t : List TestApp.Event) :
    TestApp.reads ([TestApp.Event.banner] ++ t ++ [TestApp.Event.goodbye]) = TestApp.reads t := by
  rw [reads_append, reads_append]
  simp [TestApp.reads]

theorem echoes_main_trace (t : List TestApp.Event) :
    TestApp.echoes ([TestApp.Event.banner] ++ t ++ [TestApp.Event.goodbye]) =
      TestApp.echoes t := by
  rw [echoes_append, echoes_append]
  simp [TestApp.echoes]

/-- A run of `main` is a run of the loop between the banner and the farewell. -/
theorem main_eq_some (input stdin : List Byte) :
    ∃ l, TestApp.loop (stdin.length + 1) input stdin = some l ∧
      TestApp.main input stdin =
        some ⟨0, l.stop, l.stdin, [.banner] ++ l.trace ++ [.goodbye]⟩ := by
  obtain ⟨l, hl⟩ := loop_total (stdin.length + 1) input stdin (Nat.lt_succ_self _)
  exact ⟨l, hl, by simp [TestApp.main, hl]⟩

/-- More fuel than the loop needs changes nothing. -/
theorem loop_fuel (fuel fuel2 : Nat) (input stdin : List Byte) (hfuel : stdin.length < fuel)
    (hfuel2 : stdin.length < fuel2) :
    TestApp.loop fuel input stdin = TestApp.loop fuel2 input stdin := by
  induction fuel generalizing fuel2 input stdin with
  | zero => omega
  | succ fuel ih =>
    cases fuel2 with
    | zero => omega
    | succ fuel2 =>
      cases stdin with
      | nil => rw [loop_nil, loop_nil]
      | cons b rest =>
        have hne := readLine_cons_ne_nil 254 b rest
        have hpos : 0 < (readLine 255 (b :: rest)).length := List.length_pos.mpr hne
        have hlen : ((b :: rest).drop (readLine 255 (b :: rest)).length).length <
            rest.length + 1 := by
          rw [List.length_drop]; simp only [List.length_cons]; omega
        simp only [List.length_cons] at hfuel hfuel2
        rw [loop_cons, loop_cons, ih fuel2 _ _ (by omega) (by omega)]

theorem reads_specTrace (ls : List (List Byte)) :
    TestApp.reads (TestApp.specTrace ls) = (TestApp.specRepl ls).read := by
  induction ls with
  | nil => simp [TestApp.specTrace, TestApp.specRepl, TestApp.reads]
  | cons l ls ih =>
    by_cases hx : TestApp.lineText l = ascii "exit"
    · simp [TestApp.specTrace, TestApp.specRepl, TestApp.reads, hx]
    · simp [TestApp.specTrace, TestApp.specRepl, TestApp.reads, hx, ih]

theorem echoes_specTrace (ls : List (List Byte)) :
    TestApp.echoes (TestApp.specTrace ls) = (TestApp.specRepl ls).echoed := by
  induction ls with
  | nil => simp [TestApp.specTrace, TestApp.specRepl, TestApp.echoes]
  | cons l ls ih =>
    by_cases hx : TestApp.lineText l = ascii "exit"
    · simp [TestApp.specTrace, TestApp.specRepl, TestApp.echoes, hx]
    · simp [TestApp.specTrace, TestApp.specRepl, TestApp.echoes, hx, ih]

theorem ascii_prompt_said : ascii "> You said: " = ascii "> " ++ ascii "You said: " := by decide

theorem stdout_specTrace (ls : List (List Byte)) :
    TestApp.stdout (TestApp.specTrace ls) =
      (ls.takeWhile (fun l => TestApp.lineText l ≠ ascii "exit")).flatMap
        (fun l => ascii "> You said: " ++ TestApp.lineText l ++ ascii "\n") ++ ascii "> " := by
  induction ls with
  | nil => simp [TestApp.specTrace, TestApp.stdout, TestApp.render]
  | cons l ls ih =>
    by_cases hx : TestApp.lineText l = ascii "exit"
    · simp [TestApp.specTrace, TestApp.stdout, TestApp.render, hx, List.takeWhile_cons]
    · unfold TestApp.stdout at ih ⊢
      simp only [TestApp.specTrace, hx, if_false, List.flatMap_append, List.flatMap_cons,
        List.flatMap_nil, TestApp.render, List.append_nil, List.nil_append, ih,
        List.takeWhile_cons, ne_eq, not_false_eq_true, decide_True, if_true,
        ascii_prompt_said, List.append_assoc]

theorem specRepl_of_no_exit (ls : List (List Byte))
    (h : ∀ l ∈ ls, TestApp.lineText l ≠ ascii "exit") :
    TestApp.specRepl ls = ⟨.eof, ls, ls.map TestApp.lineText, []⟩ := by
  induction ls with
  | nil => rfl
  | cons l ls ih =>
    have hl := h l (by simp)
    have := ih (fun x hx => h x (List.mem_cons_of_mem _ hx))
    simp [TestApp.specRepl, hl, this]

theorem specRepl_of_split (pre : List (List Byte)) (l : List Byte) (post : List (List Byte))
    (h : ∀ p ∈ pre, TestApp.lineText p ≠ ascii "exit") (hl : TestApp.lineText l = ascii "exit") :
    TestApp.specRepl (pre ++ l :: post) =
      ⟨.exit, pre ++ [l], pre.map TestApp.lineText, post.flatten⟩ := by
  induction pre with
  | nil => simp [TestApp.specRepl, hl]
  | cons p pre ih =>
    have hp := h p (by simp)
    have := ih (fun x hx => h x (List.mem_cons_of_mem _ hx))
    simp [TestApp.specRepl, hp, this]

/-- On an input whose lines are short and free of NUL, `main` does what the
interface description says. -/
theorem main_refines (input stdin : List Byte)
    (hwf : ∀ l ∈ TestApp.lines stdin, (TestApp.lineText l).length < 255 ∧ (0 : Byte) ∉ l) :
    TestApp.main input stdin =
      some ⟨0, (TestApp.specRepl (TestApp.lines stdin)).stop,
        (TestApp.specRepl (TestApp.lines stdin)).unread,
        [.banner] ++ TestApp.specTrace (TestApp.lines stdin) ++ [.goodbye]⟩ := by
  obtain ⟨buf, hbuf⟩ := loop_refines (stdin.length + 1) input stdin (Nat.lt_succ_self _) hwf
  simp [TestApp.main, hbuf]

/-! ## The console REPL -/

/-- C1, amended: on a standard input whose lines each have a text of fewer
than 255 bytes and no NUL byte, the loop is left exactly at the first line
whose text (the line without its trailing newline) is `exit`, or at the end of
the input when there is no such line.  With a first `exit` line `l` after the
lines `pre` and ahead of the lines `post`: the loop stops through the `break`
of line 19, the lines read are `pre` and `l`, the lines echoed are those of
`pre`, and `post` is left unread.  With no `exit` line: the loop stops through
the `break` of line 12, every line has been read and echoed, nothing is left. -/
theorem repl_stops_at_first_exit_line (input stdin : List Byte)
    (hwf : ∀ l ∈ TestApp.lines stdin, (TestApp.lineText l).length < 255 ∧ (0 : Byte) ∉ l) :
    ∃ r, TestApp.main input stdin = some r ∧
      (∀ pre l post, TestApp.lines stdin = pre ++ l :: post →
        (∀ p ∈ pre, TestApp.lineText p ≠ ascii "exit") → TestApp.lineText l = ascii "exit" →
        r.stop = .exit ∧ TestApp.reads r.trace = pre ++ [l] ∧
          TestApp.echoes r.trace = pre.map TestApp.lineText ∧ r.stdin = post.flatten) ∧
      ((∀ l ∈ TestApp.lines stdin, TestApp.lineText l ≠ ascii "exit") →
        r.stop = .eof ∧ TestApp.reads r.trace = TestApp.lines stdin ∧
          TestApp.echoes r.trace = (TestApp.lines stdin).map TestApp.lineText ∧ r.stdin = []) := by
  refine ⟨_, main_refines input stdin hwf, ?_, ?_⟩
  · intro pre l post hsplit hpre hl
    simp only [reads_main_trace, echoes_main_trace, reads_specTrace, echoes_specTrace]
    rw [hsplit, specRepl_of_split pre l post hpre hl]
    exact ⟨rfl, rfl, rfl, rfl⟩
  · intro hno
    simp only [reads_main_trace, echoes_main_trace, reads_specTrace, echoes_specTrace]
    rw [specRepl_of_no_exit _ hno]
    exact ⟨rfl, rfl, rfl, rfl⟩

/-- The amended C1 at the three lines `hi`, `exit`, `more`: the loop stops at
the second line through the `break` of line 19, has echoed the first and
leaves the third unread. -/
theorem repl_stops_at_first_exit_line_witness :
    (∀ l ∈ TestApp.lines (ascii "hi\nexit\nmore\n"),
      (TestApp.lineText l).length < 255 ∧ (0 : Byte) ∉ l) ∧
    ∃ r, TestApp.main (List.replicate 256 0) (ascii "hi\nexit\nmore\n") = some r ∧
      r.stop = .exit ∧ TestApp.reads r.trace = [ascii "hi\n", ascii "exit\n"] ∧
      TestApp.echoes r.trace = [ascii "hi"] ∧ r.stdin = ascii "more\n" := by
  refine ⟨by decide, ?_⟩
  obtain ⟨r, hr, h1, _⟩ := repl_stops_at_first_exit_line (List.replicate 256 0)
    (ascii "hi\nexit\nmore\n") (by decide)
  exact ⟨r, hr, h1 [ascii "hi\n"] (ascii "exit\n") [ascii "more\n"] (by decide) (by decide)
    (by decide)⟩

set_option maxRecDepth 100000 in
/-- C1 as stated fails at two inputs.  The first is a line of 255 bytes `a`
followed by `exit`, then the line `more`: no line has the text `exit`, yet the
loop stops through the `break` of line 19 and leaves `more` unread, because
`fgets` splits the long line after 255 bytes.  The second is the line `exit`,
a NUL byte, `junk`, then the line `more`: no line has the text `exit`, yet the
loop stops the same way, because the C string in `input` ends at the NUL. -/
theorem repl_stops_without_exit_line :
    ((∀ l ∈ TestApp.lines (List.replicate 255 97 ++ ascii "exit\nmore\n"),
        TestApp.lineText l ≠ ascii "exit") ∧
      (TestApp.main (List.replicate 256 0) (List.replicate 255 97 ++ ascii "exit\nmore\n")).map
        (fun r => (r.stop, r.stdin)) = some (.exit, ascii "more\n")) ∧
    ((∀ l ∈ TestApp.lines (ascii "exit" ++ 0 :: ascii "junk\nmore\n"),
        TestApp.lineText l ≠ ascii "exit") ∧
      (TestApp.main (List.replicate 256 0) (ascii "exit" ++ 0 :: ascii "junk\nmore\n")).map
        (fun r => (r.stop, r.stdin)) = some (.exit, ascii "more\n")) := by
  decide

/-- C2: on a standard input whose lines each have a text of fewer than 255
bytes and no NUL byte, standard output is the banner, then for each line ahead
of the first line with the text `exit` (every line when there is none), in
order, `> You said: `, the text of the line and a newline, then one last
prompt `> ` and `Goodbye!` with its newline.  The `exit` line is not echoed. -/
theorem repl_stdout (input stdin : List Byte)
    (hwf : ∀ l ∈ TestApp.lines stdin, (TestApp.lineText l).length < 255 ∧ (0 : Byte) ∉ l) :
    ∃ r, TestApp.main input stdin = some r ∧
      TestApp.stdout r.trace =
        ascii "Hello World on macOS! (type 'exit' to quit):\n" ++
        ((TestApp.lines stdin).takeWhile (fun l => TestApp.lineText l ≠ ascii "exit")).flatMap
          (fun l => ascii "> You said: " ++ TestApp.lineText l ++ ascii "\n") ++
        ascii "> " ++ ascii "Goodbye!\n" := by
  refine ⟨_, main_refines input stdin hwf, ?_⟩
  have h := stdout_specTrace (TestApp.lines stdin)
  unfold TestApp.stdout at h ⊢
  simp only [List.flatMap_append, List.flatMap_cons, List.flatMap_nil, h, TestApp.render,
    List.append_nil, List.append_assoc]

/-- C2 at the three lines `hi`, `exit`, `more`: the output is the banner, the
echo of `hi`, the last prompt and the farewell. -/
theorem repl_stdout_witness :
    (∀ l ∈ TestApp.lines (ascii "hi\nexit\nmore\n"),
      (TestApp.lineText l).length < 255 ∧ (0 : Byte) ∉ l) ∧
    ∃ r, TestApp.main (List.replicate 256 0) (ascii "hi\nexit\nmore\n") = some r ∧
      TestApp.stdout r.trace =
        ascii "Hello World on macOS! (type 'exit' to quit):\n> You said: hi\n> Goodbye!\n" := by
  refine ⟨by decide, ?_⟩
  obtain ⟨r, hr, h⟩ := repl_stdout (List.replicate 256 0) (ascii "hi\nexit\nmore\n") (by decide)
  refine ⟨r, hr, h.trans ?_⟩
  decide

/-- C3: on every finite standard input `main` terminates (the loop is left
with any fuel beyond the length of the input), returns the status 0, and its
output ends with `Goodbye!` and a newline, whichever `break` left the loop.
On the empty input the loop is left through the `break` of line 12 and the
output is the banner, one prompt and the farewell. -/
theorem repl_end_of_input_is_normal (input stdin : List Byte) :
    (∃ r, TestApp.main input stdin = some r ∧ r.status = 0 ∧
      r.trace.getLast? = some .goodbye ∧
      ascii "Goodbye!\n" <:+ TestApp.stdout r.trace ∧
      ((∀ l ∈ TestApp.lines stdin, (TestApp.lineText l).length < 255 ∧ (0 : Byte) ∉ l) →
        (∀ l ∈ TestApp.lines stdin, TestApp.lineText l ≠ ascii "exit") → r.stop = .eof)) ∧
    (∀ fuel, stdin.length < fuel →
      TestApp.loop fuel input stdin = TestApp.loop (stdin.length + 1) input stdin) ∧
    TestApp.main input [] = some ⟨0, .eof, [], [.banner, .prompt, .fgets none, .goodbye]⟩ ∧
    TestApp.stdout [.banner, .prompt, .fgets none, .goodbye] =
      ascii "Hello World on macOS! (type 'exit' to quit):\n> Goodbye!\n" := by
  refine ⟨?_, ?_, ?_, ?_⟩
  · obtain ⟨l, _, hm⟩ := main_eq_some input stdin
    refine ⟨_, hm, rfl, List.getLast?_concat _, ?_, ?_⟩
    · refine ⟨TestApp.stdout ([TestApp.Event.banner] ++ l.trace), ?_⟩
      simp [TestApp.stdout, TestApp.render]
    · intro hwf hno
      have h := main_refines input stdin hwf
      rw [hm, specRepl_of_no_exit _ hno] at h
      simp only [Option.some.injEq, TestApp.Run.mk.injEq] at h
      exact h.2.1
  · intro fuel hfuel
    exact loop_fuel fuel _ input stdin hfuel (Nat.lt_succ_self _)
  · simp [TestApp.main, loop_nil]
  · decide

theorem loop_eof_stdin (fuel : Nat) (input stdin : List Byte) (r : TestApp.LoopExit)
    (h : TestApp.loop fuel input stdin = some r) : r.stop = .eof → r.stdin = [] := by
  refine loop_induction (fun _ r => r.stop = .eof → r.stdin = []) ?_ ?_ ?_ fuel input stdin r h
  · intro input _; rfl
  · intro input b rest _ hs; cases hs
  · intro b rest r _ ih hs; exact ih hs

theorem firstLine_eq_take (s : List Byte) :
    TestApp.firstLine s = s.take (TestApp.firstLine s).length := by
  induction s with
  | nil => rfl
  | cons b rest ih =>
    by_cases hb : b = 10
    · simp [TestApp.firstLine, hb]
    · simpa [TestApp.firstLine, hb] using ih

theorem firstLine_length_le (s : List Byte) : (TestApp.firstLine s).length ≤ s.length := by
  have h := congrArg List.length (firstLine_eq_take s)
  rw [List.length_take] at h
  omega

theorem lines_drop (lpre : List (List Byte)) (l : List Byte) (lpost : List (List Byte))
    (s : List Byte) (h : TestApp.lines s = lpre ++ l :: lpost) :
    TestApp.lines (s.drop lpre.flatten.length) = l :: lpost := by
  induction lpre generalizing s with
  | nil => simpa using h
  | cons p lpre ih =>
    cases s with
    | nil => simp [TestApp.lines] at h
    | cons b rest =>
      rw [lines_cons, List.cons_append, List.cons.injEq] at h
      have := ih _ h.2
      rw [List.drop_drop] at this
      rw [List.flatten_cons, List.length_append, ← h.1]
      exact this

theorem firstLine_of_lines (l : List Byte) (lpost : List (List Byte)) (s : List Byte)
    (h : TestApp.lines s = l :: lpost) : TestApp.firstLine s = l := by
  cases s with
  | nil => simp [TestApp.lines] at h
  | cons b rest =>
    rw [lines_cons, List.cons.injEq] at h
    exact h.1

/-- A chunk that starts where a line of more than 255 bytes starts is the
first 255 bytes of that line, and the loop either stops on it or reads on. -/
theorem loop_long_line (fuel : Nat) (input stdin : List Byte) (r : TestApp.LoopExit)
    (h : TestApp.loop fuel input stdin = some r)
    (lpre : List (List Byte)) (l : List Byte) (lpost : List (List Byte))
    (hl : TestApp.lines stdin = lpre ++ l :: lpost) (hlong : 255 < l.length)
    (pre : List (List Byte)) (c : List Byte) (post : List (List Byte))
    (hc : TestApp.reads r.trace = pre ++ c :: post) (hstart : pre.flatten = lpre.flatten) :
    c = l.take 255 ∧ (post ≠ [] ∨ r.stop = .exit) := by
  have hpos := loop_chunk_position fuel input stdin r h pre c post hc
  have hfl : TestApp.firstLine (stdin.drop pre.flatten.length) = l := by
    rw [hstart]
    exact firstLine_of_lines l lpost _ (lines_drop lpre l lpost stdin hl)
  have hlong2 : 255 < (TestApp.firstLine (stdin.drop pre.flatten.length)).length := by
    rw [hfl]; exact hlong
  obtain ⟨h1, _, _⟩ := readLine_of_long 255 _ hlong2
  have hlen := firstLine_length_le (stdin.drop pre.flatten.length)
  constructor
  · rw [hpos, h1, ← hfl]
    conv_rhs => rw [firstLine_eq_take, List.take_take]
    rw [Nat.min_eq_left (by omega)]
  · by_cases hp : post = []
    · right
      cases hs : r.stop with
      | exit => rfl
      | eof =>
        exfalso
        have hnil := loop_eof_stdin fuel input stdin r h hs
        have hcat := (loop_chunks fuel input stdin r h).1
        rw [hc, hp, hnil, List.append_nil, List.flatten_append] at hcat
        have hdrop : stdin.drop pre.flatten.length = c := by
          rw [← hcat]; simp
        have hc255 : c.length ≤ 255 :=
          ((loop_chunks fuel input stdin r h).2.1 c (by rw [hc]; simp)).2.1
        rw [hdrop] at hlen hlong2
        omega
    · exact Or.inl hp

set_option maxRecDepth 100000 in
/-- C10 as stated fails at the end of the input, at two inputs.  The first is
255 bytes `a` with no newline: it is one line of 255 bytes, and the loop
handles it as one input, read by a single `fgets` and echoed whole, before the
end of input stops the loop.  The second is `hi` with no newline: the one
chunk read is `hi`, which ends neither at a newline nor after 255 bytes. -/
theorem repl_chunks_at_end_of_input :
    (TestApp.lines (List.replicate 255 97) = [List.replicate 255 97] ∧
      (TestApp.main (List.replicate 256 0) (List.replicate 255 97)).map
        (fun r => (r.stop, TestApp.reads r.trace, TestApp.echoes r.trace)) =
        some (.eof, [List.replicate 255 97], [List.replicate 255 97])) ∧
    ((TestApp.main (List.replicate 256 0) (ascii "hi")).map
        (fun r => (r.stop, TestApp.reads r.trace)) = some (.eof, [ascii "hi"]) ∧
      (ascii "hi").getLast? ≠ some 10 ∧ (ascii "hi").length ≠ 255) := by
  decide

set_option maxRecDepth 100000 in
/-- C10, amended.  On every standard input `main` reads consecutive chunks:
the chunks read, followed by the unread input, are the input; each chunk has
between 1 and 255 bytes, has a newline at most as its last byte, and ends at a
newline, after 255 bytes, or at the end of the input.  Every string echoed has
at most 255 bytes and no newline.  Each chunk is handled on its own: the text
of each chunk ahead of the stop is echoed, and the loop stops through the
`break` of line 19 exactly on a chunk whose text is `exit`.  A chunk that
starts where a line of more than 255 bytes (its newline counted) starts is the
first 255 bytes of the line only, and unless the loop stops on it another
chunk is read after it.  On the input of 255 bytes `a`, `exit` and a newline,
no line has the text `exit`, and the loop stops through the `break` of line 19
after the two chunks. -/
theorem repl_reads_chunks :
    (∀ input stdin : List Byte, ∃ r, TestApp.main input stdin = some r ∧
      (TestApp.reads r.trace).flatten ++ r.stdin = stdin ∧
      (∀ pre c post, TestApp.reads r.trace = pre ++ c :: post →
        c ≠ [] ∧ c.length ≤ 255 ∧ (10 : Byte) ∉ c.dropLast ∧
        (c.getLast? = some 10 ∨ c.length = 255 ∨ (post = [] ∧ r.stdin = []))) ∧
      (∀ s ∈ TestApp.echoes r.trace, s.length ≤ 255 ∧ (10 : Byte) ∉ s) ∧
      (r.stop = .eof →
        TestApp.echoes r.trace = (TestApp.reads r.trace).map TestApp.chunkText ∧
        ∀ c ∈ TestApp.reads r.trace, TestApp.chunkText c ≠ ascii "exit") ∧
      (r.stop = .exit → ∃ pre c, TestApp.reads r.trace = pre ++ [c] ∧
        TestApp.chunkText c = ascii "exit" ∧
        TestApp.echoes r.trace = pre.map TestApp.chunkText ∧
        ∀ p ∈ pre, TestApp.chunkText p ≠ ascii "exit") ∧
      (∀ lpre l lpost, TestApp.lines stdin = lpre ++ l :: lpost → 255 < l.length →
        ∀ pre c post, TestApp.reads r.trace = pre ++ c :: post →
          pre.flatten = lpre.flatten → c = l.take 255 ∧ (post ≠ [] ∨ r.stop = .exit))) ∧
    ((∀ l ∈ TestApp.lines (List.replicate 255 97 ++ ascii "exit\n"),
        TestApp.lineText l ≠ ascii "exit") ∧
      (TestApp.main (List.replicate 256 0) (List.replicate 255 97 ++ ascii "exit\n")).map
        (fun r => (r.stop, TestApp.reads r.trace)) =
        some (.exit, [List.replicate 255 97, ascii "exit\n"])) := by
  refine ⟨?_, by decide⟩
  intro input stdin
  obtain ⟨l, hl, hm⟩ := main_eq_some input stdin
  refine ⟨_, hm, ?_⟩
  simp only [reads_main_trace, echoes_main_trace]
  obtain ⟨h1, h2, h3⟩ := loop_chunks _ input stdin l hl
  obtain ⟨h4, h5⟩ := loop_chunk_by_chunk _ input stdin l hl
  refine ⟨h1, ?_, ?_, h4, h5, ?_⟩
  · intro pre c post hsplit
    obtain ⟨a, b, c3⟩ := h2 c (by rw [hsplit]; simp)
    exact ⟨a, b, c3, h3 pre c post hsplit⟩
  · intro s hs
    have := loop_echoes _ input stdin l hl s hs
    exact ⟨this.1, this.2.1⟩
  · intro lpre ln lpost hlines hlong pre c post hsplit hstart
    exact loop_long_line _ input stdin l hl lpre ln lpost hlines hlong pre c post hsplit hstart

/-! ## Lemmas on the HTTP server -/

theorem read_length (fails : Bool) (request : List Byte) (ready : Nat) (buf : List Byte)
    (count : Nat) (h : count ≤ buf.length) :
    (WebServer.read fails request ready buf count).2.length = buf.length := by
  unfold WebServer.read
  cases fails with
  | true => simp
  | false =>
    simp only [Bool.false_eq_true, if_false, List.length_append, List.length_drop,
      List.length_take]
    omega

theorem read_drop (fails : Bool) (request : List Byte) (ready : Nat) (buf : List Byte)
    (count : Nat) :
    (WebServer.read fails request ready buf count).2.drop count = buf.drop count := by
  unfold WebServer.read
  cases fails with
  | true => simp
  | false =>
    simp only [Bool.false_eq_true, if_false]
    have hle : (request.take (min count ready)).length ≤ count := by
      rw [List.length_take]; omega
    rw [List.drop_append_eq_append_drop, List.drop_of_length_le hle, List.nil_append,
      List.drop_drop]
    congr 1
    omega

theorem read_ret (fails : Bool) (request : List Byte) (ready : Nat) (buf : List Byte)
    (count : Nat) :
    -1 ≤ (WebServer.read fails request ready buf count).1 ∧
      (WebServer.read fails request ready buf count).1 ≤ count := by
  unfold WebServer.read
  cases fails with
  | true => simp; omega
  | false =>
    simp only [Bool.false_eq_true, if_false, List.length_take]
    omega

theorem read_take (fails : Bool) (request : List Byte) (ready : Nat) (buf : List Byte)
    (count : Nat) :
    WebServer.read fails (request.take count) ready buf count =
      WebServer.read fails request ready buf count := by
  unfold WebServer.read
  cases fails with
  | true => rfl
  | false =>
    simp only [Bool.false_eq_true, if_false, List.take_take]
    have : min (min count ready) count = min count ready := by omega
    rw [this]

theorem iteration_failed (env : WebServer.Env) (fd : Int) (k : Nat) (buffer : List Byte)
    (h : env.accept k < 0) :
    WebServer.iteration env fd k buffer =
      ([.accept fd (env.accept k), .perror "Accept failed"], buffer) := by
  simp [WebServer.iteration, h]

theorem iteration_served (env : WebServer.Env) (fd : Int) (k : Nat) (buffer : List Byte)
    (sent : Int) (h : 0 ≤ env.accept k) (hs : env.send k = some sent) :
    WebServer.iteration env fd k buffer =
      ([.accept fd (env.accept k),
        .read (env.accept k) (WebServer.BUFFER_SIZE - 1)
          (WebServer.read (env.readFails k) (env.request k) (env.ready k) buffer
            (WebServer.BUFFER_SIZE - 1)).1,
        .printf (ascii "Received request:\n" ++
          cstr (WebServer.read (env.readFails k) (env.request k) (env.ready k) buffer
            (WebServer.BUFFER_SIZE - 1)).2 ++ ascii "\n"),
        .send (env.accept k) (WebServer.response.take (strlen WebServer.response))
          (strlen WebServer.response) 0 (some sent),
        .close (env.accept k)],
       (WebServer.read (env.readFails k) (env.request k) (env.ready k) buffer
          (WebServer.BUFFER_SIZE - 1)).2) := by
  simp [WebServer.iteration, not_lt.mpr h, hs]

theorem iteration_sigpipe (env : WebServer.Env) (fd : Int) (k : Nat) (buffer : List Byte)
    (h : 0 ≤ env.accept k) (hs : env.send k = none) :
    WebServer.iteration env fd k buffer =
      ([.accept fd (env.accept k),
        .read (env.accept k) (WebServer.BUFFER_SIZE - 1)
          (WebServer.read (env.readFails k) (env.request k) (env.ready k) buffer
            (WebServer.BUFFER_SIZE - 1)).1,
        .printf (ascii "Received request:\n" ++
          cstr (WebServer.read (env.readFails k) (env.request k) (env.ready k) buffer
            (WebServer.BUFFER_SIZE - 1)).2 ++ ascii "\n"),
        .send (env.accept k) (WebServer.response.take (strlen WebServer.response))
          (strlen WebServer.response) 0 none],
       (WebServer.read (env.readFails k) (env.request k) (env.ready k) buffer
          (WebServer.BUFFER_SIZE - 1)).2) := by
  simp [WebServer.iteration, not_lt.mpr h, hs]

theorem iteration_buffer (env : WebServer.Env) (fd : Int) (k : Nat) (b : List Byte) :
    (WebServer.iteration env fd k b).2 =
      if env.accept k < 0 then b
      else (WebServer.read (env.readFails k) (env.request k) (env.ready k) b
        (WebServer.BUFFER_SIZE - 1)).2 := by
  by_cases hk : env.accept k < 0
  · rw [iteration_failed env fd k b hk, if_pos hk]
  · rw [if_neg hk]
    cases hs : env.send k with
    | none => rw [iteration_sigpipe env fd k b (not_lt.mp hk) hs]
    | some sent => rw [iteration_served env fd k b sent (not_lt.mp hk) hs]

theorem dies_of_failed (env : WebServer.Env) (k : Nat) (h : env.accept k < 0) :
    WebServer.dies env k = false := by
  simp [WebServer.dies, h]

theorem dies_of_some (env : WebServer.Env) (k : Nat) (sent : Int) (hs : env.send k = some sent) :
    WebServer.dies env k = false := by
  simp [WebServer.dies, hs]

theorem dies_of_none (env : WebServer.Env) (k : Nat) (h : 0 ≤ env.accept k)
    (hs : env.send k = none) : WebServer.dies env k = true := by
  simp [WebServer.dies, hs, h]

theorem dies_iff (env : WebServer.Env) (k : Nat) :
    WebServer.dies env k = true ↔ 0 ≤ env.accept k ∧ env.send k = none := by
  simp [WebServer.dies]

theorem loop_zero (env : WebServer.Env) (fd : Int) (k : Nat) (buffer : List Byte) :
    WebServer.loop env fd 0 k buffer = ⟨.running, [], buffer⟩ := rfl

theorem loop_succ_alive (env : WebServer.Env) (fd : Int) (fuel k : Nat) (buffer : List Byte)
    (h : WebServer.dies env k = false) :
    WebServer.loop env fd (fuel + 1) k buffer =
      ⟨(WebServer.loop env fd fuel (k + 1) (WebServer.iteration env fd k buffer).2).status,
        (WebServer.iteration env fd k buffer).1 ++
          (WebServer.loop env fd fuel (k + 1) (WebServer.iteration env fd k buffer).2).trace,
        (WebServer.loop env fd fuel (k + 1) (WebServer.iteration env fd k buffer).2).buffer⟩ := by
  simp [WebServer.loop, h]

theorem loop_succ_dead (env : WebServer.Env) (fd : Int) (fuel k : Nat) (buffer : List Byte)
    (h : WebServer.dies env k = true) :
    WebServer.loop env fd (fuel + 1) k buffer =
      ⟨.killed WebServer.SIGPIPE, (WebServer.iteration env fd k buffer).1,
        (WebServer.iteration env fd k buffer).2⟩ := by
  simp [WebServer.loop, h]

/-- The loop is either still going or has been ended by `SIGPIPE`. -/
theorem loop_status (env : WebServer.Env) (fd : Int) (fuel k : Nat) (buffer : List Byte) :
    (WebServer.loop env fd fuel k buffer).status = .running ∨
      (WebServer.loop env fd fuel k buffer).status = .killed WebServer.SIGPIPE := by
  induction fuel generalizing k buffer with
  | zero => exact Or.inl rfl
  | succ fuel ih =>
    cases hd : WebServer.dies env k with
    | true => rw [loop_succ_dead env fd fuel k buffer hd]; exact Or.inr rfl
    | false => rw [loop_succ_alive env fd fuel k buffer hd]; exact ih _ _

/-- While the loop is going after `n` iterations, `n + m` iterations are the
first `n` and then `m` more. -/
theorem loop_split (env : WebServer.Env) (fd : Int) (n m k : Nat) (buffer : List Byte)
    (h : (WebServer.loop env fd n k buffer).status = .running) :
    WebServer.loop env fd (n + m) k buffer =
      ⟨(WebServer.loop env fd m (k + n) (WebServer.loop env fd n k buffer).buffer).status,
        (WebServer.loop env fd n k buffer).trace ++
          (WebServer.loop env fd m (k + n) (WebServer.loop env fd n k buffer).buffer).trace,
        (WebServer.loop env fd m (k + n) (WebServer.loop env fd n k buffer).buffer).buffer⟩ := by
  induction n generalizing k buffer with
  | zero => simp [loop_zero]
  | succ n ih =>
    cases hd : WebServer.dies env k with
    | true =>
      rw [loop_succ_dead env fd n k buffer hd] at h
      simp at h
    | false =>
      rw [loop_succ_alive env fd n k buffer hd] at h
      simp only at h
      rw [Nat.add_right_comm, loop_succ_alive env fd (n + m) k buffer hd,
        loop_succ_alive env fd n k buffer hd, ih _ _ h]
      simp only [List.append_assoc]
      rw [show k + 1 + n = k + (n + 1) by omega]

/-- Once a `send` has ended the process, more fuel changes nothing. -/
theorem loop_dead (env : WebServer.Env) (fd : Int) (n m k : Nat) (buffer : List Byte)
    (h : (WebServer.loop env fd n k buffer).status ≠ .running) :
    WebServer.loop env fd (n + m) k buffer = WebServer.loop env fd n k buffer := by
  induction n generalizing k buffer with
  | zero => simp [loop_zero] at h
  | succ n ih =>
    cases hd : WebServer.dies env k with
    | true =>
      rw [Nat.add_right_comm, loop_succ_dead env fd (n + m) k buffer hd,
        loop_succ_dead env fd n k buffer hd]
    | false =>
      rw [loop_succ_alive env fd n k buffer hd] at h
      simp only at h
      rw [Nat.add_right_comm, loop_succ_alive env fd (n + m) k buffer hd,
        loop_succ_alive env fd n k buffer hd, ih _ _ h]

/-- The loop is still going when no iteration so far has ended the process. -/
theorem loop_running (env : WebServer.Env) (fd : Int) (fuel k : Nat) (buffer : List Byte)
    (h : ∀ i, i < fuel → WebServer.dies env (k + i) = false) :
    (WebServer.loop env fd fuel k buffer).status = .running := by
  induction fuel generalizing k buffer with
  | zero => rfl
  | succ fuel ih =>
    have hd : WebServer.dies env k = false := by simpa using h 0 (Nat.succ_pos _)
    rw [loop_succ_alive env fd fuel k buffer hd]
    apply ih
    intro i hi
    have := h (i + 1) (by omega)
    rw [show k + 1 + i = k + (i + 1) by omega]
    exact this

/-- The setup has passed: `socket` did not return 0, `bind` and `listen` did
not return a negative value. -/
theorem main_setup (env : WebServer.Env) (fuel : Nat) (h1 : env.socket ≠ 0)
    (h2 : 0 ≤ env.bind) (h3 : 0 ≤ env.listen) :
    WebServer.main env fuel =
      ⟨(WebServer.loop env env.socket fuel 0 env.buffer).status,
        [.socket WebServer.AF_INET WebServer.SOCK_STREAM 0 env.socket,
          .bind env.socket WebServer.AF_INET WebServer.INADDR_ANY
            (WebServer.htons WebServer.PORT) env.bind,
          .listen env.socket 1 env.listen,
          .printf (ascii "Web server running on http://localhost:" ++
            ascii (Nat.repr WebServer.PORT) ++ ascii "\n")] ++
          (WebServer.loop env env.socket fuel 0 env.buffer).trace,
        (WebServer.loop env env.socket fuel 0 env.buffer).buffer⟩ := by
  simp [WebServer.main, h1, not_lt.mpr h2, not_lt.mpr h3]

/-- Every event of the loop belongs to one of its iterations. -/
theorem loop_mem (env : WebServer.Env) (fd : Int) (fuel k : Nat) (buffer : List Byte)
    (e : WebServer.Event) (h : e ∈ (WebServer.loop env fd fuel k buffer).trace) :
    ∃ j b, e ∈ (WebServer.iteration env fd j b).1 := by
  induction fuel generalizing k buffer with
  | zero => simp [loop_zero] at h
  | succ fuel ih =>
    cases hd : WebServer.dies env k with
    | true =>
      rw [loop_succ_dead env fd fuel k buffer hd] at h
      exact ⟨k, buffer, h⟩
    | false =>
      rw [loop_succ_alive env fd fuel k buffer hd] at h
      rcases List.mem_append.mp h with h | h
      · exact ⟨k, buffer, h⟩
      · exact ih _ _ h

/-- The events an iteration can make. -/
theorem iteration_mem (env : WebServer.Env) (fd : Int) (j : Nat) (b : List Byte)
    (e : WebServer.Event) (h : e ∈ (WebServer.iteration env fd j b).1) :
    e = .accept fd (env.accept j) ∨ e = .perror "Accept failed" ∨
    (0 ≤ env.accept j ∧
      ((∃ ret : Int, -1 ≤ ret ∧ ret ≤ (WebServer.BUFFER_SIZE - 1 : Nat) ∧
          e = .read (env.accept j) (WebServer.BUFFER_SIZE - 1) ret) ∨
        (∃ s, e = .printf (ascii "Received request:\n" ++ s ++ ascii "\n")) ∨
        e = .send (env.accept j) (WebServer.response.take (strlen WebServer.response))
          (strlen WebServer.response) 0 (env.send j) ∨
        e = .close (env.accept j))) := by
  by_cases hk : env.accept j < 0
  · rw [iteration_failed env fd j b hk] at h
    simp only [List.mem_cons, List.mem_singleton, List.not_mem_nil, or_false] at h
    rcases h with h | h
    · exact Or.inl h
    · exact Or.inr (Or.inl h)
  · have hk2 : 0 ≤ env.accept j := not_lt.mp hk
    have hr := read_ret (env.readFails j) (env.request j) (env.ready j) b
      (WebServer.BUFFER_SIZE - 1)
    cases hs : env.send j with
    | some sent =>
      rw [iteration_served env fd j b sent hk2 hs] at h
      simp only [List.mem_cons, List.mem_singleton, List.not_mem_nil, or_false] at h
      rcases h with h | h | h | h | h
      · exact Or.inl h
      · exact Or.inr (Or.inr ⟨hk2, Or.inl ⟨_, hr.1, hr.2, h⟩⟩)
      · exact Or.inr (Or.inr ⟨hk2, Or.inr (Or.inl ⟨_, h⟩)⟩)
      · exact Or.inr (Or.inr ⟨hk2, Or.inr (Or.inr (Or.inl h))⟩)
      · exact Or.inr (Or.inr ⟨hk2, Or.inr (Or.inr (Or.inr h))⟩)
    | none =>
      rw [iteration_sigpipe env fd j b hk2 hs] at h
      simp only [List.mem_cons, List.mem_singleton, List.not_mem_nil, or_false] at h
      rcases h with h | h | h | h
      · exact Or.inl h
      · exact Or.inr (Or.inr ⟨hk2, Or.inl ⟨_, hr.1, hr.2, h⟩⟩)
      · exact Or.inr (Or.inr ⟨hk2, Or.inr (Or.inl ⟨_, h⟩)⟩)
      · exact Or.inr (Or.inr ⟨hk2, Or.inr (Or.inr (Or.inl h))⟩)

/-- The four ways a run of `main` can go. -/
theorem main_cases (env : WebServer.Env) (fuel : Nat) :
    (env.socket = 0 ∧ WebServer.main env fuel =
      ⟨.exited WebServer.EXIT_FAILURE,
        [.socket WebServer.AF_INET WebServer.SOCK_STREAM 0 env.socket,
          .perror "Socket failed", .exit WebServer.EXIT_FAILURE],
        env.buffer⟩) ∨
    (env.socket ≠ 0 ∧ env.bind < 0 ∧ WebServer.main env fuel =
      ⟨.exited WebServer.EXIT_FAILURE,
        [.socket WebServer.AF_INET WebServer.SOCK_STREAM 0 env.socket,
          .bind env.socket WebServer.AF_INET WebServer.INADDR_ANY
            (WebServer.htons WebServer.PORT) env.bind,
          .perror "Bind failed", .close env.socket, .exit WebServer.EXIT_FAILURE],
        env.buffer⟩) ∨
    (env.socket ≠ 0 ∧ 0 ≤ env.bind ∧ env.listen < 0 ∧ WebServer.main env fuel =
      ⟨.exited WebServer.EXIT_FAILURE,
        [.socket WebServer.AF_INET WebServer.SOCK_STREAM 0 env.socket,
          .bind env.socket WebServer.AF_INET WebServer.INADDR_ANY
            (WebServer.htons WebServer.PORT) env.bind,
          .listen env.socket 1 env.listen,
          .perror "Listen failed", .close env.socket, .exit WebServer.EXIT_FAILURE],
        env.buffer⟩) ∨
    (env.socket ≠ 0 ∧ 0 ≤ env.bind ∧ 0 ≤ env.listen ∧ WebServer.main env fuel =
      ⟨(WebServer.loop env env.socket fuel 0 env.buffer).status,
        [.socket WebServer.AF_INET WebServer.SOCK_STREAM 0 env.socket,
          .bind env.socket WebServer.AF_INET WebServer.INADDR_ANY
            (WebServer.htons WebServer.PORT) env.bind,
          .listen env.socket 1 env.listen,
          .printf (ascii "Web server running on http://localhost:" ++
            ascii (Nat.repr WebServer.PORT) ++ ascii "\n")] ++
          (WebServer.loop env env.socket fuel 0 env.buffer).trace,
        (WebServer.loop env env.socket fuel 0 env.buffer).buffer⟩) := by
  by_cases h1 : env.socket = 0
  · exact Or.inl ⟨h1, by simp [WebServer.main, h1]⟩
  · by_cases h2 : env.bind < 0
    · exact Or.inr (Or.inl ⟨h1, h2, by simp [WebServer.main, h1, h2]⟩)
    · by_cases h3 : env.listen < 0
      · exact Or.inr (Or.inr (Or.inl ⟨h1, not_lt.mp h2, h3, by simp [WebServer.main, h1, h2, h3]⟩))
      · exact Or.inr (Or.inr (Or.inr ⟨h1, not_lt.mp h2, not_lt.mp h3,
          main_setup env fuel h1 (not_lt.mp h2) (not_lt.mp h3)⟩))

/-- The events of a run of `main` are those of the setup and of the loop. -/
theorem main_mem (env : WebServer.Env) (fuel : Nat) (e : WebServer.Event)
    (h : e ∈ (WebServer.main env fuel).trace) :
    e = .socket WebServer.AF_INET WebServer.SOCK_STREAM 0 env.socket ∨
    e = .perror "Socket failed" ∨ e = .exit WebServer.EXIT_FAILURE ∨
    e = .bind env.socket WebServer.AF_INET WebServer.INADDR_ANY
      (WebServer.htons WebServer.PORT) env.bind ∨
    e = .perror "Bind failed" ∨ e = .close env.socket ∨
    e = .listen env.socket 1 env.listen ∨ e = .perror "Listen failed" ∨
    e = .printf (ascii "Web server running on http://localhost:" ++
      ascii (Nat.repr WebServer.PORT) ++ ascii "\n") ∨
    (env.socket ≠ 0 ∧ 0 ≤ env.bind ∧ 0 ≤ env.listen ∧
      e ∈ (WebServer.loop env env.socket fuel 0 env.buffer).trace) := by
  rcases main_cases env fuel with ⟨h1, hm⟩ | ⟨_, _, hm⟩ | ⟨_, _, _, hm⟩ | ⟨h1, h2, h3, hm⟩
  · rw [hm] at h
    simp only [List.mem_cons, List.not_mem_nil, or_false] at h
    tauto
  · rw [hm] at h
    simp only [List.mem_cons, List.not_mem_nil, or_false] at h
    tauto
  · rw [hm] at h
    simp only [List.mem_cons, List.not_mem_nil, or_false] at h
    tauto
  · rw [hm] at h
    simp only [List.mem_append, List.mem_cons, List.not_mem_nil, or_false] at h
    tauto

theorem loop_head_succ (env : WebServer.Env) (fd : Int) (fuel k : Nat) (buffer : List Byte) :
    ∃ t, (WebServer.loop env fd (fuel + 1) k buffer).trace =
      .accept fd (env.accept k) :: t := by
  by_cases hk : env.accept k < 0
  · rw [loop_succ_alive env fd fuel k buffer (dies_of_failed env k hk),
      iteration_failed env fd k buffer hk]
    exact ⟨_, rfl⟩
  · cases hs : env.send k with
    | some sent =>
      rw [loop_succ_alive env fd fuel k buffer (dies_of_some env k sent hs),
        iteration_served env fd k buffer sent (not_lt.mp hk) hs]
      exact ⟨_, rfl⟩
    | none =>
      rw [loop_succ_dead env fd fuel k buffer (dies_of_none env k (not_lt.mp hk) hs),
        iteration_sigpipe env fd k buffer (not_lt.mp hk) hs]
      exact ⟨_, rfl⟩

theorem loop_head (env : WebServer.Env) (fd : Int) (fuel k : Nat) (buffer : List Byte) :
    (WebServer.loop env fd fuel k buffer).trace = [] ∨
      ∃ t, (WebServer.loop env fd fuel k buffer).trace = .accept fd (env.accept k) :: t := by
  cases fuel with
  | zero => exact Or.inl rfl
  | succ fuel => exact Or.inr (loop_head_succ env fd fuel k buffer)

/-- In the trace of the loop, an `accept` that returns a descriptor `c` is
followed by one `read` on `c`, the log line and one `send` of the response on
`c`; then, when the `send` returned, by one `close` of `c` and the next
`accept` or nothing, and, when the `send` raised `SIGPIPE`, by nothing, the
process having ended. -/
theorem loop_accept_followed (env : WebServer.Env) (fd : Int) (fuel k : Nat)
    (buffer : List Byte) (pre : List WebServer.Event) (sfd c : Int)
    (post : List WebServer.Event)
    (h : (WebServer.loop env fd fuel k buffer).trace = pre ++ .accept sfd c :: post)
    (hc : 0 ≤ c) :
    (∃ rd out sent post1,
      post = [.read c (WebServer.BUFFER_SIZE - 1) rd, .printf out,
        .send c (WebServer.response.take (strlen WebServer.response))
          (strlen WebServer.response) 0 (some sent), .close c] ++ post1 ∧
      (post1 = [] ∨ ∃ c1 t, post1 = .accept fd c1 :: t)) ∨
    (∃ rd out,
      post = [.read c (WebServer.BUFFER_SIZE - 1) rd, .printf out,
        .send c (WebServer.response.take (strlen WebServer.response))
          (strlen WebServer.response) 0 none] ∧
      (WebServer.loop env fd fuel k buffer).status = .killed WebServer.SIGPIPE) := by
  induction fuel generalizing k buffer pre with
  | zero =>
    rw [loop_zero] at h
    simp at h
  | succ fuel ih =>
    by_cases hk : env.accept k < 0
    · rw [loop_succ_alive env fd fuel k buffer (dies_of_failed env k hk)] at h ⊢
      rw [iteration_failed env fd k buffer hk] at h ⊢
      match pre, h with
      | [], h =>
        simp only [List.nil_append, List.cons_append, List.cons.injEq,
          WebServer.Event.accept.injEq] at h
        omega
      | [_], h => simp at h
      | _ :: _ :: pre2, h =>
        simp only [List.cons_append, List.nil_append, List.cons.injEq] at h
        exact ih _ _ pre2 h.2.2
    · cases hs : env.send k with
      | some sent =>
        rw [loop_succ_alive env fd fuel k buffer (dies_of_some env k sent hs)] at h ⊢
        rw [iteration_served env fd k buffer sent (not_lt.mp hk) hs] at h ⊢
        match pre, h with
        | [], h =>
          simp only [List.nil_append, List.cons_append, List.cons.injEq,
            WebServer.Event.accept.injEq] at h
          obtain ⟨⟨_, hc1⟩, hpost⟩ := h
          subst hc1
          left
          refine ⟨_, _, sent, _, hpost.symm, ?_⟩
          rcases loop_head env fd fuel (k + 1)
            (WebServer.read (env.readFails k) (env.request k) (env.ready k) buffer
              (WebServer.BUFFER_SIZE - 1)).2 with h0 | ⟨t, ht⟩
          · exact Or.inl h0
          · exact Or.inr ⟨_, t, ht⟩
        | [_], h => simp at h
        | [_, _], h => simp at h
        | [_, _, _], h => simp at h
        | [_, _, _, _], h => simp at h
        | _ :: _ :: _ :: _ :: _ :: pre2, h =>
          simp only [List.cons_append, List.nil_append, List.cons.injEq] at h
          exact ih _ _ pre2 h.2.2.2.2.2
      | none =>
        rw [loop_succ_dead env fd fuel k buffer (dies_of_none env k (not_lt.mp hk) hs)] at h ⊢
        rw [iteration_sigpipe env fd k buffer (not_lt.mp hk) hs] at h
        match pre, h with
        | [], h =>
          simp only [List.nil_append, List.cons.injEq, WebServer.Event.accept.injEq] at h
          obtain ⟨⟨_, hc1⟩, hpost⟩ := h
          subst hc1
          right
          exact ⟨_, _, hpost.symm, rfl⟩
        | [_], h => simp at h
        | [_, _], h => simp at h
        | [_, _, _], h => simp at h
        | _ :: _ :: _ :: _ :: pre2, h => simp at h

/-- The loop calls neither `bind` nor `listen`, and does not exit. -/
theorem loop_no_setup (env : WebServer.Env) (fd : Int) (fuel k : Nat) (buffer : List Byte) :
    (∀ a b c d r, WebServer.Event.bind a b c d r ∉ (WebServer.loop env fd fuel k buffer).trace) ∧
    (∀ a b r, WebServer.Event.listen a b r ∉ (WebServer.loop env fd fuel k buffer).trace) ∧
    (∀ code, WebServer.Event.exit code ∉ (WebServer.loop env fd fuel k buffer).trace) := by
  refine ⟨?_, ?_, ?_⟩
  · intro a b c d r h
    obtain ⟨j, bf, hj⟩ := loop_mem env fd fuel k buffer _ h
    rcases iteration_mem env fd j bf _ hj with h | h | ⟨_, ⟨_, _, _, h⟩ | ⟨_, h⟩ | h | h⟩ <;>
      simp at h
  · intro a b r h
    obtain ⟨j, bf, hj⟩ := loop_mem env fd fuel k buffer _ h
    rcases iteration_mem env fd j bf _ hj with h | h | ⟨_, ⟨_, _, _, h⟩ | ⟨_, h⟩ | h | h⟩ <;>
      simp at h
  · intro code h
    obtain ⟨j, bf, hj⟩ := loop_mem env fd fuel k buffer _ h
    rcases iteration_mem env fd j bf _ hj with h | h | ⟨_, ⟨_, _, _, h⟩ | ⟨_, h⟩ | h | h⟩ <;>
      simp at h

/-- Every `send` of a run passes the response. -/
theorem main_send (env : WebServer.Env) (fuel : Nat) (fd : Int) (bytes : List Byte) (len : Nat)
    (flags : Int) (ret : Option Int)
    (h : WebServer.Event.send fd bytes len flags ret ∈ (WebServer.main env fuel).trace) :
    bytes = WebServer.response.take (strlen WebServer.response) ∧
      len = strlen WebServer.response ∧ flags = 0 := by
  rcases main_mem env fuel _ h with h | h | h | h | h | h | h | h | h | ⟨_, _, _, h⟩
  all_goals try simp only [reduceCtorEq] at h
  obtain ⟨j, bf, hj⟩ := loop_mem env env.socket fuel 0 env.buffer _ h
  rcases iteration_mem env env.socket j bf _ hj with h | h | ⟨_, ⟨_, _, _, h⟩ | ⟨_, h⟩ | h | h⟩
  all_goals try simp only [reduceCtorEq] at h
  simp only [WebServer.Event.send.injEq] at h
  exact ⟨h.2.1, h.2.2.1, h.2.2.2.1⟩

set_option maxRecDepth 100000 in
/-- The response as a C string: 162 bytes, the status line, the header, the
empty line and the page. -/
theorem response_text :
    WebServer.response.take (strlen WebServer.response) = cstr WebServer.response ∧
    strlen WebServer.response = 162 ∧
    cstr WebServer.response =
      ascii "HTTP/1.1 200 OK\r\n" ++ ascii "Content-Type: text/html\r\n" ++ ascii "\r\n" ++
      ascii ("<!DOCTYPE html><html><head><title>Simple macOS Web Server</title></head>" ++
        "<body><h1>Hello from macOS!</h1></body></html>") := by
  decide

/-- The process has been ended by `SIGPIPE` exactly when the trace of the loop
has a `send` that did not return. -/
theorem loop_killed_iff (env : WebServer.Env) (fd : Int) (fuel k : Nat) (buffer : List Byte) :
    (WebServer.loop env fd fuel k buffer).status = .killed WebServer.SIGPIPE ↔
      ∃ c bytes len flags, WebServer.Event.send c bytes len flags none ∈
        (WebServer.loop env fd fuel k buffer).trace := by
  induction fuel generalizing k buffer with
  | zero => simp [loop_zero]
  | succ fuel ih =>
    by_cases hk : env.accept k < 0
    · rw [loop_succ_alive env fd fuel k buffer (dies_of_failed env k hk),
        iteration_failed env fd k buffer hk]
      simp only [List.mem_append, List.mem_cons, List.not_mem_nil, or_false, reduceCtorEq,
        false_or]
      exact ih _ _
    · cases hs : env.send k with
      | some sent =>
        rw [loop_succ_alive env fd fuel k buffer (dies_of_some env k sent hs),
          iteration_served env fd k buffer sent (not_lt.mp hk) hs]
        simp only [List.mem_append, List.mem_cons, List.not_mem_nil, or_false, reduceCtorEq,
          false_or, WebServer.Event.send.injEq, and_false]
        exact ih _ _
      | none =>
        rw [loop_succ_dead env fd fuel k buffer (dies_of_none env k (not_lt.mp hk) hs),
          iteration_sigpipe env fd k buffer (not_lt.mp hk) hs]
        simp only [true_iff]
        exact ⟨env.accept k, WebServer.response.take (strlen WebServer.response),
          strlen WebServer.response, 0, by simp⟩

/-- Iteration `k + i` of a loop of more than `i` iterations, when no iteration
ahead of it has ended the process, handles the connection it accepts: the
`accept`, the `read`, the log line and the `send`, and the `close` when the
`send` returns. -/
theorem loop_nth_served (env : WebServer.Env) (fd : Int) (fuel k i : Nat) (buffer : List Byte)
    (hi : i < fuel) (hacc : 0 ≤ env.accept (k + i))
    (halive : ∀ i1, i1 < i → WebServer.dies env (k + i1) = false) :
    ∃ pre rd out post, (WebServer.loop env fd fuel k buffer).trace =
      pre ++ [.accept fd (env.accept (k + i)),
        .read (env.accept (k + i)) (WebServer.BUFFER_SIZE - 1) rd, .printf out,
        .send (env.accept (k + i)) (WebServer.response.take (strlen WebServer.response))
          (strlen WebServer.response) 0 (env.send (k + i))] ++ post ∧
      (∀ sent, env.send (k + i) = some sent →
        ∃ post2, post = .close (env.accept (k + i)) :: post2) ∧
      (env.send (k + i) = none → post = [] ∧
        (WebServer.loop env fd fuel k buffer).status = .killed WebServer.SIGPIPE) := by
  obtain ⟨m, rfl⟩ : ∃ m, fuel = i + (m + 1) := ⟨fuel - i - 1, by omega⟩
  rw [loop_split env fd i (m + 1) k buffer (loop_running env fd i k buffer halive)]
  cases hs : env.send (k + i) with
  | some sent =>
    rw [loop_succ_alive env fd m (k + i) _ (dies_of_some env (k + i) sent hs),
      iteration_served env fd (k + i) _ sent hacc hs]
    refine ⟨(WebServer.loop env fd i k buffer).trace,
      (WebServer.read (env.readFails (k + i)) (env.request (k + i)) (env.ready (k + i))
        (WebServer.loop env fd i k buffer).buffer (WebServer.BUFFER_SIZE - 1)).1,
      ascii "Received request:\n" ++
        cstr (WebServer.read (env.readFails (k + i)) (env.request (k + i)) (env.ready (k + i))
          (WebServer.loop env fd i k buffer).buffer (WebServer.BUFFER_SIZE - 1)).2 ++ ascii "\n",
      .close (env.accept (k + i)) ::
        (WebServer.loop env fd m (k + i + 1)
          (WebServer.read (env.readFails (k + i)) (env.request (k + i)) (env.ready (k + i))
            (WebServer.loop env fd i k buffer).buffer (WebServer.BUFFER_SIZE - 1)).2).trace,
      ?_, ?_, ?_⟩
    · simp only [List.append_assoc, List.cons_append, List.nil_append]
    · intro s _
      exact ⟨_, rfl⟩
    · intro hn; cases hn
  | none =>
    rw [loop_succ_dead env fd m (k + i) _ (dies_of_none env (k + i) hacc hs),
      iteration_sigpipe env fd (k + i) _ hacc hs]
    refine ⟨(WebServer.loop env fd i k buffer).trace,
      (WebServer.read (env.readFails (k + i)) (env.request (k + i)) (env.ready (k + i))
        (WebServer.loop env fd i k buffer).buffer (WebServer.BUFFER_SIZE - 1)).1,
      ascii "Received request:\n" ++
        cstr (WebServer.read (env.readFails (k + i)) (env.request (k + i)) (env.ready (k + i))
          (WebServer.loop env fd i k buffer).buffer (WebServer.BUFFER_SIZE - 1)).2 ++ ascii "\n",
      [], ?_, ?_, ?_⟩
    · simp only [List.append_nil]
    · intro s hsome; cases hsome
    · intro _; exact ⟨rfl, rfl⟩

theorem iteration_buffer_length (env : WebServer.Env) (fd : Int) (k : Nat) (b : List Byte)
    (h : b.length = WebServer.BUFFER_SIZE) :
    (WebServer.iteration env fd k b).2.length = WebServer.BUFFER_SIZE := by
  rw [iteration_buffer]
  by_cases hk : env.accept k < 0
  · rw [if_pos hk]; exact h
  · rw [if_neg hk, read_length _ _ _ _ _ (by rw [h]; exact Nat.sub_le _ _), h]

theorem iteration_buffer_drop (env : WebServer.Env) (fd : Int) (k : Nat) (b : List Byte) :
    (WebServer.iteration env fd k b).2.drop (WebServer.BUFFER_SIZE - 1) =
      b.drop (WebServer.BUFFER_SIZE - 1) := by
  rw [iteration_buffer]
  by_cases hk : env.accept k < 0
  · rw [if_pos hk]
  · rw [if_neg hk]
    exact read_drop _ _ _ _ _

theorem loop_buffer_length (env : WebServer.Env) (fd : Int) (fuel k : Nat) (b : List Byte)
    (h : b.length = WebServer.BUFFER_SIZE) :
    (WebServer.loop env fd fuel k b).buffer.length = WebServer.BUFFER_SIZE := by
  induction fuel generalizing k b with
  | zero => exact h
  | succ fuel ih =>
    cases hd : WebServer.dies env k with
    | true =>
      rw [loop_succ_dead env fd fuel k b hd]
      exact iteration_buffer_length env fd k b h
    | false =>
      rw [loop_succ_alive env fd fuel k b hd]
      exact ih _ _ (iteration_buffer_length env fd k b h)

theorem loop_buffer_drop (env : WebServer.Env) (fd : Int) (fuel k : Nat) (b : List Byte) :
    (WebServer.loop env fd fuel k b).buffer.drop (WebServer.BUFFER_SIZE - 1) =
      b.drop (WebServer.BUFFER_SIZE - 1) := by
  induction fuel generalizing k b with
  | zero => rfl
  | succ fuel ih =>
    cases hd : WebServer.dies env k with
    | true =>
      rw [loop_succ_dead env fd fuel k b hd]
      exact iteration_buffer_drop env fd k b
    | false =>
      rw [loop_succ_alive env fd fuel k b hd]
      simp only
      rw [ih, iteration_buffer_drop]

/-- The loop sees of each request only its first `BUFFER_SIZE - 1` bytes. -/
theorem loop_request_take (env : WebServer.Env) (request2 : Nat → List Byte)
    (h : ∀ k, (request2 k).take (WebServer.BUFFER_SIZE - 1) =
      (env.request k).take (WebServer.BUFFER_SIZE - 1))
    (fd : Int) (fuel k : Nat) (b : List Byte) :
    WebServer.loop { env with request := request2 } fd fuel k b =
      WebServer.loop env fd fuel k b := by
  induction fuel generalizing k b with
  | zero => rfl
  | succ fuel ih =>
    have hit : WebServer.iteration { env with request := request2 } fd k b =
        WebServer.iteration env fd k b := by
      unfold WebServer.iteration
      simp only
      rw [← read_take _ (request2 k), ← read_take _ (env.request k), h k]
    have hdies : WebServer.dies { env with request := request2 } k = WebServer.dies env k := rfl
    cases hd : WebServer.dies env k with
    | true =>
      rw [loop_succ_dead _ fd fuel k b (hdies.trans hd), loop_succ_dead env fd fuel k b hd, hit]
    | false =>
      rw [loop_succ_alive _ fd fuel k b (hdies.trans hd), loop_succ_alive env fd fuel k b hd,
        hit, ih]

/-! ## The HTTP server -/

set_option maxRecDepth 100000 in
/-- C4: the bytes passed to `send` do not depend on the request.  For any two
runs of the server, in any two environments (any results of the system calls,
any requests, the empty one included) and for any two `send` calls of their
traces, the bytes passed and the length passed are the same: the whole C
string `response`, of length `strlen(response)`, which is the status line
`HTTP/1.1 200 OK`, the header `Content-Type: text/html`, an empty line and the
HTML page. -/
theorem reply_is_constant (env1 env2 : WebServer.Env) (fuel1 fuel2 : Nat) (fd1 fd2 : Int)
    (bytes1 bytes2 : List Byte) (len1 len2 : Nat) (flags1 flags2 : Int) (ret1 ret2 : Option Int)
    (h1 : WebServer.Event.send fd1 bytes1 len1 flags1 ret1 ∈ (WebServer.main env1 fuel1).trace)
    (h2 : WebServer.Event.send fd2 bytes2 len2 flags2 ret2 ∈ (WebServer.main env2 fuel2).trace) :
    bytes1 = bytes2 ∧ len1 = len2 ∧
    bytes1 = cstr WebServer.response ∧ len1 = strlen WebServer.response ∧
    bytes1 =
      ascii "HTTP/1.1 200 OK\r\n" ++ ascii "Content-Type: text/html\r\n" ++ ascii "\r\n" ++
      ascii ("<!DOCTYPE html><html><head><title>Simple macOS Web Server</title></head>" ++
        "<body><h1>Hello from macOS!</h1></body></html>") := by
  obtain ⟨a1, a2, _⟩ := main_send env1 fuel1 fd1 bytes1 len1 flags1 ret1 h1
  obtain ⟨b1, b2, _⟩ := main_send env2 fuel2 fd2 bytes2 len2 flags2 ret2 h2
  obtain ⟨r1, _, r3⟩ := response_text
  refine ⟨by rw [a1, b1], by rw [a2, b2], by rw [a1, r1], a2, by rw [a1, r1, r3]⟩

set_option maxRecDepth 100000 in
/-- C4 at two runs: a client that sends a `GET` request on descriptor 4, and in
another run a second client that sends nothing on descriptor 5.  Both are sent
the same 162 bytes. -/
theorem reply_is_constant_witness :
    WebServer.Event.send 4 (cstr WebServer.response) 162 0 (some 162) ∈
      (WebServer.main (WebServer.exampleEnv 3 0 0 (fun _ => 4)
        (fun _ => ascii "GET / HTTP/1.1\r\n\r\n")) 1).trace ∧
    WebServer.Event.send 5 (cstr WebServer.response) 162 0 (some 162) ∈
      (WebServer.main (WebServer.exampleEnv 3 0 0 (fun _ => 5) (fun _ => [])) 2).trace ∧
    cstr WebServer.response = cstr WebServer.response ∧ 162 = 162 ∧
    cstr WebServer.response = cstr WebServer.response ∧ 162 = strlen WebServer.response ∧
    cstr WebServer.response =
      ascii "HTTP/1.1 200 OK\r\n" ++ ascii "Content-Type: text/html\r\n" ++ ascii "\r\n" ++
      ascii ("<!DOCTYPE html><html><head><title>Simple macOS Web Server</title></head>" ++
        "<body><h1>Hello from macOS!</h1></body></html>") :=
  have h1 : WebServer.Event.send 4 (cstr WebServer.response) 162 0 (some 162) ∈
      (WebServer.main (WebServer.exampleEnv 3 0 0 (fun _ => 4)
        (fun _ => ascii "GET / HTTP/1.1\r\n\r\n")) 1).trace := by decide
  have h2 : WebServer.Event.send 5 (cstr WebServer.response) 162 0 (some 162) ∈
      (WebServer.main (WebServer.exampleEnv 3 0 0 (fun _ => 5) (fun _ => [])) 2).trace := by
    decide
  ⟨h1, h2, reply_is_constant _ _ _ _ _ _ _ _ _ _ _ _ _ _ h1 h2⟩

set_option maxRecDepth 100000 in
/-- C5 fails on the code.  When `socket` returns -1 the test of line 23, which
compares the result with 0, does not fire: nothing is reported for `socket`,
and the server goes on to call `bind` on the descriptor -1.  Here `bind` fails
in turn, so the run ends with the report `Bind failed`, a `close` of -1 and
the failure status.  When `socket` returns the valid descriptor 0, the same
test reports `Socket failed` and exits. -/
theorem socket_failure_reaches_bind :
    ((WebServer.main (WebServer.exampleEnv (-1) (-1) 0 (fun _ => 4) (fun _ => [])) 1).status =
        .exited WebServer.EXIT_FAILURE ∧
      (WebServer.main (WebServer.exampleEnv (-1) (-1) 0 (fun _ => 4) (fun _ => [])) 1).trace =
        [.socket WebServer.AF_INET WebServer.SOCK_STREAM 0 (-1),
          .bind (-1) WebServer.AF_INET WebServer.INADDR_ANY (WebServer.htons 8080) (-1),
          .perror "Bind failed", .close (-1), .exit WebServer.EXIT_FAILURE]) ∧
    ((WebServer.main (WebServer.exampleEnv 0 0 0 (fun _ => 4) (fun _ => [])) 1).status =
        .exited WebServer.EXIT_FAILURE ∧
      (WebServer.main (WebServer.exampleEnv 0 0 0 (fun _ => 4) (fun _ => [])) 1).trace =
        [.socket WebServer.AF_INET WebServer.SOCK_STREAM 0 0,
          .perror "Socket failed", .exit WebServer.EXIT_FAILURE]) := by
  decide

/-- C6: when `bind` is called and returns a negative value, the run is the
`socket` call, the `bind` call on port 8080 and the address `INADDR_ANY`, the
report `Bind failed`, the `close` of the server socket and the exit with
`EXIT_FAILURE`.  When `listen` is called and returns a negative value, `bind`
had returned a non-negative one and the run is the `socket` call, the `bind`
call, the `listen` call with backlog 1, the report `Listen failed`, the
`close` of the server socket and the exit with `EXIT_FAILURE`.  Neither run
has the `Web server running` line or an `accept`.  In every run, a `bind` call
is on the descriptor `socket` returned, for `AF_INET`, `INADDR_ANY` and the
port 8080 (the bytes 31 and 144 in network order), and a `listen` call is on
that descriptor with backlog 1. -/
theorem bind_or_listen_failure_exits (env : WebServer.Env) (fuel : Nat) :
    (∀ fd family addr port r,
      WebServer.Event.bind fd family addr port r ∈ (WebServer.main env fuel).trace → r < 0 →
      WebServer.main env fuel =
        ⟨.exited WebServer.EXIT_FAILURE,
          [.socket WebServer.AF_INET WebServer.SOCK_STREAM 0 env.socket,
            .bind env.socket WebServer.AF_INET WebServer.INADDR_ANY (WebServer.htons 8080) r,
            .perror "Bind failed", .close env.socket, .exit WebServer.EXIT_FAILURE],
          env.buffer⟩) ∧
    (∀ fd backlog r,
      WebServer.Event.listen fd backlog r ∈ (WebServer.main env fuel).trace → r < 0 →
      0 ≤ env.bind ∧
      WebServer.main env fuel =
        ⟨.exited WebServer.EXIT_FAILURE,
          [.socket WebServer.AF_INET WebServer.SOCK_STREAM 0 env.socket,
            .bind env.socket WebServer.AF_INET WebServer.INADDR_ANY (WebServer.htons 8080)
              env.bind,
            .listen env.socket 1 r,
            .perror "Listen failed", .close env.socket, .exit WebServer.EXIT_FAILURE],
          env.buffer⟩) ∧
    (∀ fd family addr port r,
      WebServer.Event.bind fd family addr port r ∈ (WebServer.main env fuel).trace →
      fd = env.socket ∧ family = WebServer.AF_INET ∧ addr = WebServer.INADDR_ANY ∧
        port = WebServer.htons 8080 ∧ port = [31, 144] ∧ 31 * 256 + 144 = 8080) ∧
    (∀ fd backlog r,
      WebServer.Event.listen fd backlog r ∈ (WebServer.main env fuel).trace →
      fd = env.socket ∧ backlog = 1) := by
  have hnb := fun a b c d r => (loop_no_setup env env.socket fuel 0 env.buffer).1 a b c d r
  have hnl := fun a b r => (loop_no_setup env env.socket fuel 0 env.buffer).2.1 a b r
  refine ⟨?_, ?_, ?_, ?_⟩
  · intro fd family addr port r h hr
    rcases main_cases env fuel with ⟨_, hm⟩ | ⟨_, hb, hm⟩ | ⟨_, hb, _, hm⟩ | ⟨_, hb, _, hm⟩
    · rw [hm] at h; simp at h
    · rw [hm] at h ⊢
      simp at h
      rw [h.2.2.2.2]
      rfl
    · rw [hm] at h
      simp at h
      omega
    · rw [hm] at h
      simp only [List.mem_append, List.mem_cons, List.not_mem_nil, or_false, reduceCtorEq,
        false_or, WebServer.Event.bind.injEq] at h
      rcases h with h | h
      · omega
      · exact absurd h (hnb _ _ _ _ _)
  · intro fd backlog r h hr
    rcases main_cases env fuel with ⟨_, hm⟩ | ⟨_, _, hm⟩ | ⟨_, hb, hl, hm⟩ | ⟨_, _, hl, hm⟩
    · rw [hm] at h; simp at h
    · rw [hm] at h; simp at h
    · rw [hm] at h ⊢
      simp at h
      rw [h.2.2]
      exact ⟨hb, rfl⟩
    · rw [hm] at h
      simp only [List.mem_append, List.mem_cons, List.not_mem_nil, or_false, reduceCtorEq,
        false_or, WebServer.Event.listen.injEq] at h
      rcases h with h | h
      · omega
      · exact absurd h (hnl _ _ _)
  · intro fd family addr port r h
    rcases main_mem env fuel _ h with h | h | h | h | h | h | h | h | h | ⟨_, _, _, h⟩
    all_goals try simp only [reduceCtorEq] at h
    · simp only [WebServer.Event.bind.injEq] at h
      obtain ⟨a, b, c, d, _⟩ := h
      exact ⟨a, b, c, d, by rw [d]; decide, by decide⟩
    · exact absurd h (hnb _ _ _ _ _)
  · intro fd backlog r h
    rcases main_mem env fuel _ h with h | h | h | h | h | h | h | h | h | ⟨_, _, _, h⟩
    all_goals try simp only [reduceCtorEq] at h
    · simp only [WebServer.Event.listen.injEq] at h
      exact ⟨h.1, h.2.1⟩
    · exact absurd h (hnl _ _ _)

set_option maxRecDepth 100000 in
/-- C6 at two runs on descriptor 3: one where `bind` returns -1, one where
`bind` returns 0 and `listen` returns -1. -/
theorem bind_or_listen_failure_exits_witness :
    WebServer.main (WebServer.exampleEnv 3 (-1) 0 (fun _ => 4) (fun _ => [])) 5 =
      ⟨.exited WebServer.EXIT_FAILURE,
        [.socket WebServer.AF_INET WebServer.SOCK_STREAM 0 3,
          .bind 3 WebServer.AF_INET WebServer.INADDR_ANY (WebServer.htons 8080) (-1),
          .perror "Bind failed", .close 3, .exit WebServer.EXIT_FAILURE],
        List.replicate 1024 0⟩ ∧
    WebServer.main (WebServer.exampleEnv 3 0 (-1) (fun _ => 4) (fun _ => [])) 5 =
      ⟨.exited WebServer.EXIT_FAILURE,
        [.socket WebServer.AF_INET WebServer.SOCK_STREAM 0 3,
          .bind 3 WebServer.AF_INET WebServer.INADDR_ANY (WebServer.htons 8080) 0,
          .listen 3 1 (-1),
          .perror "Listen failed", .close 3, .exit WebServer.EXIT_FAILURE],
        List.replicate 1024 0⟩ :=
  ⟨(bind_or_listen_failure_exits (WebServer.exampleEnv 3 (-1) 0 (fun _ => 4) (fun _ => [])) 5).1
      3 WebServer.AF_INET WebServer.INADDR_ANY (WebServer.htons 8080) (-1) (by decide)
      (by decide),
    ((bind_or_listen_failure_exits (WebServer.exampleEnv 3 0 (-1) (fun _ => 4) (fun _ => [])) 5).2.1
      3 1 (-1) (by decide) (by decide)).2⟩

/-- C7: a failed `accept` is logged and skipped.  After a successful setup,
when the run reaches iteration `n` and its `accept` returns a negative value,
then whatever the iterations before it did: iteration `n` adds to the trace
the `accept` call and the report `Accept failed` and nothing else (no `read`,
`send`, `close` or `exit`), leaves the buffer as it was and leaves the server
running; what follows is the loop going on at iteration `n + 1` from that same
buffer, so its next event, if fuel remains, is the `accept` of iteration
`n + 1`; and a later iteration whose `accept` returns a descriptor, when no
`send` between has ended the process, handles the connection: `accept`,
`read`, the log line, the `send` of the response, and the `close` when that
`send` returns. -/
theorem failed_accept_is_skipped (env : WebServer.Env) (n m : Nat) (h1 : env.socket ≠ 0)
    (h2 : 0 ≤ env.bind) (h3 : 0 ≤ env.listen)
    (hreach : (WebServer.main env n).status = .running) (hfail : env.accept n < 0) :
    (WebServer.main env (n + 1)).status = .running ∧
    (WebServer.main env (n + 1)).trace =
      (WebServer.main env n).trace ++
        [.accept env.socket (env.accept n), .perror "Accept failed"] ∧
    (WebServer.main env (n + 1)).buffer = (WebServer.main env n).buffer ∧
    (WebServer.main env (n + 1 + m)).trace =
      (WebServer.main env n).trace ++
        [.accept env.socket (env.accept n), .perror "Accept failed"] ++
        (WebServer.loop env env.socket m (n + 1) (WebServer.main env n).buffer).trace ∧
    (WebServer.main env (n + 1 + m)).status =
      (WebServer.loop env env.socket m (n + 1) (WebServer.main env n).buffer).status ∧
    (0 < m →
      ∃ t, (WebServer.loop env env.socket m (n + 1) (WebServer.main env n).buffer).trace =
        .accept env.socket (env.accept (n + 1)) :: t) ∧
    (∀ j, j < m → 0 ≤ env.accept (n + 1 + j) →
      (∀ i, i < j → WebServer.dies env (n + 1 + i) = false) →
      ∃ pre rd out post, (WebServer.main env (n + 1 + m)).trace =
        pre ++ [.accept env.socket (env.accept (n + 1 + j)),
          .read (env.accept (n + 1 + j)) (WebServer.BUFFER_SIZE - 1) rd, .printf out,
          .send (env.accept (n + 1 + j)) (WebServer.response.take (strlen WebServer.response))
            (strlen WebServer.response) 0 (env.send (n + 1 + j))] ++ post ∧
        (∀ sent, env.send (n + 1 + j) = some sent →
          ∃ post2, post = .close (env.accept (n + 1 + j)) :: post2)) := by
  rw [main_setup env n h1 h2 h3] at hreach
  simp only at hreach
  have hsplit : ∀ m, WebServer.loop env env.socket (n + 1 + m) 0 env.buffer =
      ⟨(WebServer.loop env env.socket m (n + 1)
          (WebServer.loop env env.socket n 0 env.buffer).buffer).status,
        (WebServer.loop env env.socket n 0 env.buffer).trace ++
          ([.accept env.socket (env.accept n), .perror "Accept failed"] ++
            (WebServer.loop env env.socket m (n + 1)
              (WebServer.loop env env.socket n 0 env.buffer).buffer).trace),
        (WebServer.loop env env.socket m (n + 1)
          (WebServer.loop env env.socket n 0 env.buffer).buffer).buffer⟩ := by
    intro m
    rw [Nat.add_assoc, loop_split env env.socket n (1 + m) 0 env.buffer hreach,
      Nat.add_comm 1 m, Nat.zero_add,
      loop_succ_alive env env.socket m n _ (dies_of_failed env n hfail),
      iteration_failed env env.socket n _ hfail]
  have h0 := hsplit 0
  rw [loop_zero] at h0
  rw [main_setup env (n + 1 + m) h1 h2 h3, main_setup env (n + 1) h1 h2 h3,
    main_setup env n h1 h2 h3]
  simp only [hsplit m, show WebServer.loop env env.socket (n + 1) 0 env.buffer = _ from h0]
  refine ⟨trivial, ?_, trivial, ?_, trivial, ?_, ?_⟩
  · simp only [List.append_nil, List.append_assoc]
  · simp only [List.append_assoc]
  · intro hm
    obtain ⟨m1, rfl⟩ : ∃ m1, m = m1 + 1 := ⟨m - 1, by omega⟩
    rcases loop_head env env.socket (m1 + 1) (n + 1)
      (WebServer.loop env env.socket n 0 env.buffer).buffer with h0 | ht
    · exfalso
      by_cases hk : env.accept (n + 1) < 0
      · rw [loop_succ_alive env env.socket m1 (n + 1) _ (dies_of_failed env (n + 1) hk),
          iteration_failed env env.socket (n + 1) _ hk] at h0
        simp at h0
      · cases hs : env.send (n + 1) with
        | some sent =>
          rw [loop_succ_alive env env.socket m1 (n + 1) _ (dies_of_some env (n + 1) sent hs),
            iteration_served env env.socket (n + 1) _ sent (not_lt.mp hk) hs] at h0
          simp at h0
        | none =>
          rw [loop_succ_dead env env.socket m1 (n + 1) _
            (dies_of_none env (n + 1) (not_lt.mp hk) hs),
            iteration_sigpipe env env.socket (n + 1) _ (not_lt.mp hk) hs] at h0
          simp at h0
    · exact ht
  · intro j hj hacc halive
    obtain ⟨pre, rd, out, post, hp, hclose, _⟩ := loop_nth_served env env.socket m (n + 1) j
      (WebServer.loop env env.socket n 0 env.buffer).buffer hj hacc halive
    refine ⟨[.socket WebServer.AF_INET WebServer.SOCK_STREAM 0 env.socket,
      .bind env.socket WebServer.AF_INET WebServer.INADDR_ANY
        (WebServer.htons WebServer.PORT) env.bind,
      .listen env.socket 1 env.listen,
      .printf (ascii "Web server running on http://localhost:" ++
        ascii (Nat.repr WebServer.PORT) ++ ascii "\n")] ++
      ((WebServer.loop env env.socket n 0 env.buffer).trace ++
        ([.accept env.socket (env.accept n), .perror "Accept failed"] ++ pre)),
      rd, out, post, ?_, hclose⟩
    simp only [hp, List.append_assoc]

set_option maxRecDepth 100000 in
/-- C7 at a run where the first `accept` returns -1 and the second returns the
descriptor 4: the failure is reported, and the second connection is served. -/
theorem failed_accept_is_skipped_witness :
    ((WebServer.main (WebServer.exampleEnv 3 0 0 (fun k => if k = 0 then -1 else 4)
        (fun _ => ascii "GET / HTTP/1.1\r\n\r\n")) 0).status = .running ∧
      (WebServer.exampleEnv 3 0 0 (fun k => if k = 0 then -1 else 4)
        (fun _ => ascii "GET / HTTP/1.1\r\n\r\n")).accept 0 < 0) ∧
    (WebServer.main (WebServer.exampleEnv 3 0 0 (fun k => if k = 0 then -1 else 4)
        (fun _ => ascii "GET / HTTP/1.1\r\n\r\n")) 2).trace =
      (WebServer.main (WebServer.exampleEnv 3 0 0 (fun k => if k = 0 then -1 else 4)
        (fun _ => ascii "GET / HTTP/1.1\r\n\r\n")) 0).trace ++
      [.accept 3 (-1), .perror "Accept failed",
        .accept 3 4, .read 4 1023 18,
        .printf (ascii "Received request:\nGET / HTTP/1.1\r\n\r\n\n"),
        .send 4 (cstr WebServer.response) 162 0 (some 162), .close 4] :=
  ⟨⟨by decide, by decide⟩,
    ((failed_accept_is_skipped (WebServer.exampleEnv 3 0 0 (fun k => if k = 0 then -1 else 4)
      (fun _ => ascii "GET / HTTP/1.1\r\n\r\n")) 0 1 (by decide) (by decide) (by decide)
      (by decide) (by decide)).2.2.2.1).trans (by decide)⟩

set_option maxRecDepth 100000 in
/-- C8 as stated fails when a client has reset its connection: the `read`
fails, and the `send` of line 54 then raises `SIGPIPE`, for which the program
sets no handler, so that the process ends inside the call.  In this run on
server socket 3 the `accept` returns the descriptor 4, the `read` returns -1
and the `send` does not return: the trace ends at the `send`, with no `close`
of 4 and no further `accept`, and the loop has been left. -/
theorem send_sigpipe_ends_server :
    (WebServer.main { WebServer.exampleEnv 3 0 0 (fun _ => 4) (fun _ => []) with
        readFails := fun _ => true, send := fun _ => none } 2).status =
      .killed WebServer.SIGPIPE ∧
    (WebServer.main { WebServer.exampleEnv 3 0 0 (fun _ => 4) (fun _ => []) with
        readFails := fun _ => true, send := fun _ => none } 2).trace =
      [.socket WebServer.AF_INET WebServer.SOCK_STREAM 0 3,
        .bind 3 WebServer.AF_INET WebServer.INADDR_ANY (WebServer.htons 8080) 0,
        .listen 3 1 0,
        .printf (ascii "Web server running on http://localhost:8080\n"),
        .accept 3 4, .read 4 1023 (-1),
        .printf (ascii "Received request:\n\n"),
        .send 4 (cstr WebServer.response) 162 0 none] := by
  decide

/-- C8, amended: after a successful setup the server handles one connection
at a time.  For any number of iterations and any results of `accept`, `read`
and `send`: the server is still running or has been ended by `SIGPIPE`;
wherever the trace has an `accept` that returned a descriptor `c`, the call
was on the server socket and the events after it are exactly one `read` on
`c`, the log line and one `send` of the response on `c`, in that order, and
then either, the `send` having returned, exactly one `close` of `c` followed
by the next `accept` or by the end of the trace, or, the `send` having raised
`SIGPIPE`, nothing, the process having ended; every `close` is of a descriptor
that an `accept` returned, so that, as `accept` never returns the descriptor of
the server socket, the server socket is never closed; the trace has no `exit`;
the loop is left exactly when a `send` did not return, and is never left when
every `send` returns, whatever it returns and whatever `read` does; and while
the server is running one more iteration extends the trace, starting with
another `accept`. -/
theorem accept_respond_close (env : WebServer.Env) (fuel : Nat) (h1 : env.socket ≠ 0)
    (h2 : 0 ≤ env.bind) (h3 : 0 ≤ env.listen) (hnew : ∀ k, env.accept k ≠ env.socket) :
    ((WebServer.main env fuel).status = .running ∨
      (WebServer.main env fuel).status = .killed WebServer.SIGPIPE) ∧
    (∀ pre sfd c post, (WebServer.main env fuel).trace = pre ++ .accept sfd c :: post → 0 ≤ c →
      sfd = env.socket ∧
      ((∃ rd out sent post1,
          post = [.read c (WebServer.BUFFER_SIZE - 1) rd, .printf out,
            .send c (WebServer.response.take (strlen WebServer.response))
              (strlen WebServer.response) 0 (some sent), .close c] ++ post1 ∧
          (post1 = [] ∨ ∃ c1 t, post1 = .accept env.socket c1 :: t)) ∨
        (∃ rd out,
          post = [.read c (WebServer.BUFFER_SIZE - 1) rd, .printf out,
            .send c (WebServer.response.take (strlen WebServer.response))
              (strlen WebServer.response) 0 none] ∧
          (WebServer.main env fuel).status = .killed WebServer.SIGPIPE))) ∧
    (∀ c, WebServer.Event.close c ∈ (WebServer.main env fuel).trace →
      ∃ k, c = env.accept k ∧ 0 ≤ c) ∧
    WebServer.Event.close env.socket ∉ (WebServer.main env fuel).trace ∧
    (∀ code, WebServer.Event.exit code ∉ (WebServer.main env fuel).trace) ∧
    ((WebServer.main env fuel).status = .killed WebServer.SIGPIPE ↔
      ∃ c bytes len flags,
        WebServer.Event.send c bytes len flags none ∈ (WebServer.main env fuel).trace) ∧
    ((∀ k, k < fuel → 0 ≤ env.accept k → env.send k ≠ none) →
      (WebServer.main env fuel).status = .running) ∧
    ((WebServer.main env fuel).status = .running →
      ∃ t, (WebServer.main env (fuel + 1)).trace =
        (WebServer.main env fuel).trace ++ .accept env.socket (env.accept fuel) :: t) := by
  rw [main_setup env (fuel + 1) h1 h2 h3, main_setup env fuel h1 h2 h3]
  simp only
  refine ⟨loop_status env env.socket fuel 0 env.buffer, ?_, ?_, ?_, ?_, ?_, ?_, ?_⟩
  · intro pre sfd c post h hc
    have hmem : WebServer.Event.accept sfd c ∈
        (WebServer.loop env env.socket fuel 0 env.buffer).trace ∧
        ∃ pre2, (WebServer.loop env env.socket fuel 0 env.buffer).trace =
          pre2 ++ .accept sfd c :: post := by
      match pre, h with
      | [], h => simp at h
      | [_], h => simp at h
      | [_, _], h => simp at h
      | [_, _, _], h => simp at h
      | _ :: _ :: _ :: _ :: pre2, h =>
        simp only [List.cons_append, List.nil_append, List.cons.injEq] at h
        exact ⟨by rw [h.2.2.2.2]; simp, pre2, h.2.2.2.2⟩
    obtain ⟨hin, pre2, hloop⟩ := hmem
    refine ⟨?_, loop_accept_followed env env.socket fuel 0 env.buffer pre2 sfd c post hloop hc⟩
    obtain ⟨j, bf, hj⟩ := loop_mem env env.socket fuel 0 env.buffer _ hin
    rcases iteration_mem env env.socket j bf _ hj with h | h | ⟨_, ⟨_, _, _, h⟩ | ⟨_, h⟩ | h | h⟩
    all_goals try simp only [reduceCtorEq] at h
    simp only [WebServer.Event.accept.injEq] at h
    exact h.1
  · intro c h
    simp only [List.mem_append, List.mem_cons, List.not_mem_nil, or_false, reduceCtorEq,
      false_or] at h
    obtain ⟨j, bf, hj⟩ := loop_mem env env.socket fuel 0 env.buffer _ h
    rcases iteration_mem env env.socket j bf _ hj with h | h | ⟨hacc, ⟨_, _, _, h⟩ | ⟨_, h⟩ | h | h⟩
    all_goals try simp only [reduceCtorEq] at h
    simp only [WebServer.Event.close.injEq] at h
    exact ⟨j, h, by rw [h]; exact hacc⟩
  · intro h
    simp only [List.mem_append, List.mem_cons, List.not_mem_nil, or_false, reduceCtorEq,
      false_or] at h
    obtain ⟨j, bf, hj⟩ := loop_mem env env.socket fuel 0 env.buffer _ h
    rcases iteration_mem env env.socket j bf _ hj with h | h | ⟨_, ⟨_, _, _, h⟩ | ⟨_, h⟩ | h | h⟩
    all_goals try simp only [reduceCtorEq] at h
    simp only [WebServer.Event.close.injEq] at h
    exact hnew j h.symm
  · intro code h
    simp only [List.mem_append, List.mem_cons, List.not_mem_nil, or_false, reduceCtorEq,
      false_or] at h
    exact (loop_no_setup env env.socket fuel 0 env.buffer).2.2 code h
  · rw [loop_killed_iff]
    simp only [List.mem_append, List.mem_cons, List.not_mem_nil, or_false, reduceCtorEq,
      false_or]
  · intro hsend
    apply loop_running
    intro i hi
    rw [Nat.zero_add]
    cases hd : WebServer.dies env i with
    | false => rfl
    | true =>
      obtain ⟨ha, hn⟩ := (dies_iff env i).mp hd
      exact absurd hn (hsend i hi ha)
  · intro hrun
    rw [loop_split env env.socket fuel 1 0 env.buffer hrun, Nat.zero_add]
    simp only
    obtain ⟨t, ht⟩ := loop_head_succ env env.socket 0 fuel
      (WebServer.loop env env.socket fuel 0 env.buffer).buffer
    exact ⟨t, by rw [ht]; simp only [List.append_assoc, List.cons_append, List.nil_append]⟩

set_option maxRecDepth 100000 in
/-- The amended C8 at a run of two iterations on server socket 3 where each
`accept` returns the descriptor 4 and each `send` returns: the server is
still running, its socket 3 has not been closed, and a third iteration starts
with another `accept`. -/
theorem accept_respond_close_witness :
    ((WebServer.exampleEnv 3 0 0 (fun _ => 4) (fun _ => ascii "GET / HTTP/1.1\r\n\r\n")).socket ≠ 0 ∧
      ∀ k, (WebServer.exampleEnv 3 0 0 (fun _ => 4)
        (fun _ => ascii "GET / HTTP/1.1\r\n\r\n")).accept k ≠ 3) ∧
    (WebServer.main (WebServer.exampleEnv 3 0 0 (fun _ => 4)
      (fun _ => ascii "GET / HTTP/1.1\r\n\r\n")) 2).status = .running ∧
    WebServer.Event.close 3 ∉ (WebServer.main (WebServer.exampleEnv 3 0 0 (fun _ => 4)
      (fun _ => ascii "GET / HTTP/1.1\r\n\r\n")) 2).trace ∧
    ∃ t, (WebServer.main (WebServer.exampleEnv 3 0 0 (fun _ => 4)
        (fun _ => ascii "GET / HTTP/1.1\r\n\r\n")) 3).trace =
      (WebServer.main (WebServer.exampleEnv 3 0 0 (fun _ => 4)
        (fun _ => ascii "GET / HTTP/1.1\r\n\r\n")) 2).trace ++ .accept 3 4 :: t :=
  have h := accept_respond_close
    (WebServer.exampleEnv 3 0 0 (fun _ => 4) (fun _ => ascii "GET / HTTP/1.1\r\n\r\n")) 2
    (by decide) (by decide) (by decide) (fun _ => (by decide : (4 : Int) ≠ 3))
  have hrun := h.2.2.2.2.2.2.1 (fun _ _ _ => Option.some_ne_none 162)
  ⟨⟨by decide, fun _ => (by decide : (4 : Int) ≠ 3)⟩, hrun, h.2.2.2.1, h.2.2.2.2.2.2.2 hrun⟩

/-- C9: each request is read into the buffer of `BUFFER_SIZE` = 1024 bytes by
one `read` that asks for `BUFFER_SIZE - 1` = 1023 bytes.  With a buffer of
1024 bytes, in every run and for requests of any size: every `read` call asks
for 1023 bytes and returns -1 or at most 1023; the buffer keeps its 1024 bytes
and its last byte is never written; a successful `read` stores the first
bytes of the request, at most 1023 of them, at the start of the buffer; and
the run is the same for any other requests with the same first 1023 bytes, so
that the bytes of a request beyond the first 1023 have no effect on it. -/
theorem request_read_is_bounded (env : WebServer.Env) (fuel : Nat)
    (hbuf : env.buffer.length = WebServer.BUFFER_SIZE) :
    WebServer.BUFFER_SIZE = 1024 ∧
    (∀ fd count ret, WebServer.Event.read fd count ret ∈ (WebServer.main env fuel).trace →
      count = WebServer.BUFFER_SIZE - 1 ∧ count = 1023 ∧ -1 ≤ ret ∧ ret ≤ 1023) ∧
    (WebServer.main env fuel).buffer.length = WebServer.BUFFER_SIZE ∧
    (WebServer.main env fuel).buffer.drop 1023 = env.buffer.drop 1023 ∧
    (∀ k b, b.length = WebServer.BUFFER_SIZE → 0 ≤ env.accept k → env.readFails k = false →
      ∃ stored, stored = (env.request k).take (min 1023 (env.ready k)) ∧
        stored.length ≤ 1023 ∧
        (WebServer.iteration env env.socket k b).2 = stored ++ b.drop stored.length ∧
        ((WebServer.iteration env env.socket k b).2).length = WebServer.BUFFER_SIZE ∧
        WebServer.Event.read (env.accept k) 1023 stored.length ∈
          (WebServer.iteration env env.socket k b).1) ∧
    (∀ request2 : Nat → List Byte,
      (∀ k, (request2 k).take 1023 = (env.request k).take 1023) →
      WebServer.main { env with request := request2 } fuel = WebServer.main env fuel) := by
  refine ⟨rfl, ?_, ?_, ?_, ?_, ?_⟩
  · intro fd count ret h
    rcases main_mem env fuel _ h with h | h | h | h | h | h | h | h | h | ⟨_, _, _, h⟩
    all_goals try simp only [reduceCtorEq] at h
    obtain ⟨j, bf, hj⟩ := loop_mem env env.socket fuel 0 env.buffer _ h
    rcases iteration_mem env env.socket j bf _ hj with h | h | ⟨_, ⟨r, hr1, hr2, h⟩ | ⟨_, h⟩ | h | h⟩
    all_goals try simp only [reduceCtorEq] at h
    simp only [WebServer.Event.read.injEq] at h
    obtain ⟨_, hc, hr⟩ := h
    subst hc hr
    exact ⟨rfl, rfl, hr1, hr2⟩
  · rcases main_cases env fuel with ⟨_, hm⟩ | ⟨_, _, hm⟩ | ⟨_, _, _, hm⟩ | ⟨_, _, _, hm⟩
    · rw [hm]; exact hbuf
    · rw [hm]; exact hbuf
    · rw [hm]; exact hbuf
    · rw [hm]; exact loop_buffer_length env env.socket fuel 0 env.buffer hbuf
  · rcases main_cases env fuel with ⟨_, hm⟩ | ⟨_, _, hm⟩ | ⟨_, _, _, hm⟩ | ⟨_, _, _, hm⟩
    · rw [hm]
    · rw [hm]
    · rw [hm]
    · rw [hm]; exact loop_buffer_drop env env.socket fuel 0 env.buffer
  · intro k b hb hacc hread
    refine ⟨_, rfl, ?_, ?_, iteration_buffer_length env env.socket k b hb, ?_⟩
    · rw [List.length_take]; omega
    · rw [iteration_buffer, if_neg (not_lt.mpr hacc)]
      simp [WebServer.read, hread, WebServer.BUFFER_SIZE]
    · cases hs : env.send k with
      | some sent =>
        rw [iteration_served env env.socket k b sent hacc hs]
        simp [WebServer.read, hread, WebServer.BUFFER_SIZE]
      | none =>
        rw [iteration_sigpipe env env.socket k b hacc hs]
        simp [WebServer.read, hread, WebServer.BUFFER_SIZE]
  · intro request2 h
    have hl := loop_request_take env request2 h
    unfold WebServer.main
    simp only [hl]

/-- C9 at a run with a request of 2000 bytes on a buffer of 1024 NUL bytes:
the buffer keeps its 1024 bytes and its last byte is as it was, and the run is
the same when the request is cut to its first 1023 bytes. -/
theorem request_read_is_bounded_witness :
    (WebServer.exampleEnv 3 0 0 (fun _ => 4) (fun _ => List.replicate 2000 65)).buffer.length =
      WebServer.BUFFER_SIZE ∧
    (WebServer.main (WebServer.exampleEnv 3 0 0 (fun _ => 4)
      (fun _ => List.replicate 2000 65)) 1).buffer.length = WebServer.BUFFER_SIZE ∧
    (WebServer.main (WebServer.exampleEnv 3 0 0 (fun _ => 4)
      (fun _ => List.replicate 2000 65)) 1).buffer.drop 1023 =
      (List.replicate WebServer.BUFFER_SIZE (0 : Byte)).drop 1023 ∧
    WebServer.main { WebServer.exampleEnv 3 0 0 (fun _ => 4) (fun _ => List.replicate 2000 65) with
      request := fun _ => List.replicate 1023 65 } 1 =
      WebServer.main (WebServer.exampleEnv 3 0 0 (fun _ => 4)
        (fun _ => List.replicate 2000 65)) 1 :=
  have h := request_read_is_bounded
    (WebServer.exampleEnv 3 0 0 (fun _ => 4) (fun _ => List.replicate 2000 65)) 1
    (List.length_replicate _ _)
  ⟨List.length_replicate _ _, h.2.2.1, h.2.2.2.1,
    h.2.2.2.2.2 (fun _ => List.replicate 1023 65) (fun _ => by
      show (List.replicate 1023 (65 : Byte)).take 1023 = (List.replicate 2000 (65 : Byte)).take 1023
      rw [List.take_replicate, List.take_replicate]
      rfl)⟩

end MacExecute
